import Mathlib

/-!
# WikiGraph-Explorer: verification of the SQL tuple parser, loaders and BFS engine

Shallow embedding of the core of the WikiGraph-Explorer repository:

* `SQLParserUtils.cpp` — the SQL `INSERT INTO` tuple parser
  (`SQLTupleParser::next_int`, `next_string`, `next_bool`, `extract_tuples`);
* `PageLoader.cpp` / `LinkTargetLoader.cpp` / `LinkLoader.cpp` — the loader
  pipeline building the page vector, the three lookup maps and the edge list;
* `PageGraph.cpp` — graph construction (`PageGraph::PageGraph`), the layered
  breadth-first search with parent lists (`PageGraph::bfs_with_parents`) and
  the all-shortest-paths enumeration (`PageGraph::all_shortest_paths`).

Strings are embedded as `List Char`; machine integers as `Nat`/`Int` with
explicit `% 2 ^ 32` where 32-bit overflow matters.  The two `while` loops of
the BFS engine are embedded with an explicit fuel parameter returning
`Option`; `none` models non-termination and the theorems prove the chosen
fuel always suffices for the graphs the program can build.
-/

namespace WikiGraph

/-! ## SQL tuple parser (`SQLParserUtils.cpp`)

The parser state is the tuple text `t : List Char` plus a cursor `pos`;
each `next_*` returns the parsed value and the new cursor, or `none` where
the C++ member function returns `false` (callers drop the row on `false`
and never reuse the cursor, so the failure cursor is not modelled). -/

/-- `SQLTupleParser::consume_delimiters`: skip a single comma at the cursor. -/
def consumeDelimiters (t : List Char) (pos : Nat) : Nat :=
  if t.getD pos ' ' = ',' then pos + 1 else pos

/-- Value of a run of decimal digits, most significant first. -/
def digitsToNat (ds : List Char) : Nat :=
  ds.foldl (fun acc c => acc * 10 + (c.toNat - '0'.toNat)) 0

/-- `SQLTupleParser::next_int` (via `std::from_chars`): after skipping a
delimiter, parse an optional minus sign (signed destinations only) followed
by a non-empty digit run; fail on no digits or on a value outside
`[lo, hi]` (`std::errc::result_out_of_range`).  The cursor advances past
the consumed pattern on success. -/
def nextInt (t : List Char) (pos : Nat) (signed : Bool) (lo hi : Int) :
    Option (Int × Nat) :=
  let p := consumeDelimiters t pos
  let rest := t.drop p
  let neg := signed && (rest.headD ' ' == '-')
  let rest' := if neg then rest.tail else rest
  let ds := rest'.takeWhile Char.isDigit
  if ds = [] then none
  else
    let v : Int := if neg then -(digitsToNat ds : Int) else (digitsToNat ds : Int)
    if v < lo ∨ hi < v then none
    else some (v, p + (if neg then 1 else 0) + ds.length)

/-- The escape-decoding loop of `SQLTupleParser::next_string` (the "slow
path"), carrying the `escape` flag.  An escaped quote or backslash is kept;
any other escaped character is dropped together with its backslash; an
unescaped underscore becomes a space.  `none` models the
`return !escape` failure on a trailing unmatched backslash. -/
def slowDecode : Bool → List Char → Option (List Char)
  | true, [] => none
  | false, [] => some []
  | true, c :: r =>
    if c = '\'' ∨ c = '\\' then (slowDecode false r).map (c :: ·)
    else slowDecode false r
  | false, c :: r =>
    if c = '\\' then slowDecode true r
    else if c = '_' then (slowDecode false r).map (' ' :: ·)
    else (slowDecode false r).map (c :: ·)

/-- `SQLTupleParser::next_string`: requires an opening quote at the cursor,
takes the slice up to the next quote (`m_tuple.find('\'', start)`, i.e. the
first quote regardless of escaping), then either the fast path (no
backslash or quote in the slice: copy with `_` → space) or the slow
escape-decoding path. -/
def nextString (t : List Char) (pos : Nat) : Option (List Char × Nat) :=
  let p := consumeDelimiters t pos
  if p < t.length ∧ t.getD p ' ' = '\'' then
    let start := p + 1
    match (t.drop start).findIdx? (· == '\'') with
    | none => none
    | some k =>
      let slice := (t.drop start).take k
      if slice.any (fun c => c == '\\' || c == '\'') then
        (slowDecode false slice).map (·, start + k + 1)
      else
        some (slice.map (fun c => if c = '_' then ' ' else c), start + k + 1)
  else none

/-- `SQLTupleParser::next_bool`: parse an integer (as a `uint32_t`); zero is
`false`, non-zero is `true`. -/
def nextBool (t : List Char) (pos : Nat) : Option (Bool × Nat) :=
  (nextInt t pos false 0 (2 ^ 32 - 1)).map fun vp => (vp.1 != 0, vp.2)

/-- The scan inside `extract_tuples`: split on the literal three-byte
sequence `),(`, leftmost match first (`line.find(delim, start)`), the
accumulator holding the current tuple reversed. -/
def splitOnDelim (acc : List Char) : List Char → List (List Char)
  | ')' :: ',' :: '(' :: rest => acc.reverse :: splitOnDelim [] rest
  | c :: rest => splitOnDelim (c :: acc) rest
  | [] => [acc.reverse]

/-- `extract_tuples`: drop the prefix through the first `(`
(`remove_prefix(line.find('(') + 1)`, where an absent `(` gives
`npos + 1 = 0` by `size_t` wrap-around), drop the trailing `);`
(`remove_suffix(2)`), then split on `),(`. -/
def extractTuples (line : List Char) : List (List Char) :=
  let k := match line.findIdx? (· == '(') with
    | some i => i + 1
    | none => 0
  let body := (line.drop k).take ((line.drop k).length - 2)
  splitOnDelim [] body

/-! ## Page loader (`PageLoader.cpp`) -/

/-- `struct Page` from `PageLoader.h`. -/
structure Page where
  pageTitle : List Char
  pageIsRedirect : Bool
deriving DecidableEq

/-- `PageLoader::parse_line`: extract tuples and for each parse
`page_id : uint32`, `page_namespace : int32` (skip unless `0`),
`page_title : string`, `page_is_redirect : bool`; rows failing any parse
are silently skipped (the loop `continue`s). -/
def pageParseLine (line : List Char) : List (Nat × Page) :=
  (extractTuples line).filterMap fun tup =>
    match nextInt tup 0 false 0 (2 ^ 32 - 1) with
    | none => none
    | some (pid, p1) =>
      match nextInt tup p1 true (-(2 ^ 31 : Int)) (2 ^ 31 - 1) with
      | none => none
      | some (ns, p2) =>
        if ns ≠ 0 then none
        else
          match nextString tup p2 with
          | none => none
          | some (title, p3) =>
            match nextBool tup p3 with
            | none => none
            | some (isRed, _) => some (pid.toNat, ⟨title, isRed⟩)

/-! ## Loader pipeline (`PageLoader.cpp`, `LinkTargetLoader.cpp`, `LinkLoader.cpp`)

The three lookup structures are embedded as association lists; `emplace`
models `std::unordered_map::emplace`, which inserts only when the key is
absent.  `page_id` and `lt_id` keys are embedded as `Nat` (their values
never matter for the claims), titles as `List Char`. -/

/-- First-match association-list lookup (`Hashmap::find`). -/
def alookup {α : Type} [DecidableEq α] : List (α × Nat) → α → Option Nat
  | [], _ => none
  | (k', v) :: rest, k => if k' = k then some v else alookup rest k

/-- `Hashmap::emplace`: insert `(k, v)` only when `k` is absent. -/
def emplace {α : Type} [DecidableEq α] (m : List (α × Nat)) (k : α) (v : Nat) :
    List (α × Nat) :=
  match alookup m k with
  | some _ => m
  | none => m ++ [(k, v)]

/-- The shared state of the loader pipeline: the dense page vector, the three
auxiliary lookups, and the accumulated edge list. -/
structure LoaderState where
  pages : List Page
  pageIdIndex : List (Nat × Nat)
  titleIndex : List (List Char × Nat)
  linktargetIndex : List (Nat × Nat)
  links : List (Nat × Nat)

def initialLoaderState : LoaderState := ⟨[], [], [], [], []⟩

/-- One iteration of `PageLoader::insert_pages`: the new page's index is
`start_index + i` cast to `uint32_t` — equal to the current page count
modulo `2 ^ 32` — and the page is appended before both lookups are filled. -/
def insertPage (st : LoaderState) (pid : Nat) (pg : Page) : LoaderState :=
  let idx := st.pages.length % 2 ^ 32
  { st with
    pages := st.pages ++ [pg]
    pageIdIndex := emplace st.pageIdIndex pid idx
    titleIndex := emplace st.titleIndex pg.pageTitle idx }

/-- `PageLoader::insert_pages` over a parsed batch. -/
def insertPages (st : LoaderState) (batch : List (Nat × Page)) : LoaderState :=
  batch.foldl (fun s pp => insertPage s pp.1 pp.2) st

/-- One iteration of `LinkTargetLoader::insert_linktargets`: for a
`(lt_id, title)` row, look the title up in the title index; on a hit insert
`lt_id → page_index`, on a miss only bump a diagnostic counter. -/
def linktargetStep (s : LoaderState) (lt : Nat × List Char) : LoaderState :=
  match alookup s.titleIndex lt.2 with
  | some idx => { s with linktargetIndex := emplace s.linktargetIndex lt.1 idx }
  | none => s

/-- `LinkTargetLoader::insert_linktargets` over a parsed batch. -/
def insertLinktargets (st : LoaderState) (batch : List (Nat × List Char)) :
    LoaderState :=
  batch.foldl linktargetStep st

/-- One iteration of `LinkLoader::insert_links`: resolve `from_page_id`
through the page-id index and `link_target_id` through the linktarget
index; append the edge only when both lookups hit. -/
def linkStep (s : LoaderState) (l : Nat × Nat) : LoaderState :=
  match alookup s.pageIdIndex l.1, alookup s.linktargetIndex l.2 with
  | some fi, some ti => { s with links := s.links ++ [(fi, ti)] }
  | _, _ => s

/-- `LinkLoader::insert_links` over a parsed batch. -/
def insertLinks (st : LoaderState) (batch : List (Nat × Nat)) : LoaderState :=
  batch.foldl linkStep st

/-- The pipeline order of `DataLoaderManager`: all page batches, then all
linktarget batches, then all pagelink batches. -/
def runPipeline (pageBatches : List (List (Nat × Page)))
    (ltBatches : List (List (Nat × List Char)))
    (linkBatches : List (List (Nat × Nat))) : LoaderState :=
  let s1 := pageBatches.foldl insertPages initialLoaderState
  let s2 := ltBatches.foldl insertLinktargets s1
  linkBatches.foldl insertLinks s2

/-! ## Graph construction (`PageGraph::PageGraph`) -/

/-- The retained fields of `class PageGraph`: the adjacency list and the
`uint32_t` link counter. -/
structure PageGraphRepr where
  adjacencyList : List (List Nat)
  numberOfLinks : Nat
deriving DecidableEq

/-- One iteration of the construction loop of `PageGraph::PageGraph`:
append the link's destination to its source's adjacency row and increment
the `uint32_t` counter `number_of_links` (hence the `% 2 ^ 32`). -/
def buildStep (g : PageGraphRepr) (l : Nat × Nat) : PageGraphRepr :=
  { adjacencyList := g.adjacencyList.set l.1 (g.adjacencyList.getD l.1 [] ++ [l.2])
    numberOfLinks := (g.numberOfLinks + 1) % 2 ^ 32 }

/-- `PageGraph::PageGraph`: size the adjacency list to the page count
(`adjacency_list.resize(pages_.size())`), then fold the construction loop
over the edge list.  (The out-degree counting pass of the constructor only
pre-reserves capacity and has no observable effect, so it is not
modelled.) -/
def buildGraph (pages : List Page) (links : List (Nat × Nat)) : PageGraphRepr :=
  links.foldl buildStep
    { adjacencyList := List.replicate pages.length [], numberOfLinks := 0 }

/-! ## BFS with parent lists (`PageGraph::bfs_with_parents`) -/

/-- `UINT32_MAX`, the "unreached" sentinel of the distance array. -/
def UNREACHED : Nat := 4294967295

/-- The inner neighbor loop of `bfs_with_parents` for one dequeued node `u`:
an unreached neighbor gets distance `dist[u] + 1`, parent `[u]` and is
enqueued; a neighbor at exactly `dist[u] + 1` gets `u` appended to its
parent list; any other neighbor is ignored. -/
def scanRow (u : Nat) : List Nat → List Nat → List (List Nat) → List Nat →
    List Nat × List (List Nat) × List Nat
  | [], dist, parents, queue => (dist, parents, queue)
  | v :: vs, dist, parents, queue =>
    if dist.getD v UNREACHED = UNREACHED then
      scanRow u vs (dist.set v (dist.getD u UNREACHED + 1))
        (parents.set v (parents.getD v [] ++ [u])) (queue ++ [v])
    else if dist.getD v UNREACHED = dist.getD u UNREACHED + 1 then
      scanRow u vs dist (parents.set v (parents.getD v [] ++ [u])) queue
    else
      scanRow u vs dist parents queue

/-- The `while (!queue.empty())` loop of `bfs_with_parents`, with explicit
fuel (one unit per dequeue; `none` models non-termination).  On entering a
strictly deeper layer the loop stops if the end node has been reached,
otherwise advances `current_layer`; the result is the parent lists together
with `dist[end_index]`. -/
def bfsLoop (adj : List (List Nat)) (endIdx : Nat) :
    Nat → List Nat → List (List Nat) → List Nat → Nat →
    Option (List (List Nat) × Nat)
  | _, dist, parents, [], _ => some (parents, dist.getD endIdx UNREACHED)
  | 0, _, _, _ :: _, _ => none
  | fuel + 1, dist, parents, u :: rest, cur =>
    if cur < dist.getD u UNREACHED ∧ dist.getD endIdx UNREACHED ≠ UNREACHED then
      some (parents, dist.getD endIdx UNREACHED)
    else
      let cur' := if cur < dist.getD u UNREACHED then dist.getD u UNREACHED else cur
      match scanRow u (adj.getD u []) dist parents rest with
      | (dist', parents', queue') => bfsLoop adj endIdx fuel dist' parents' queue' cur'

/-- `PageGraph::bfs_with_parents`: distances start at `UINT32_MAX` except
`dist[start_index] = 0`, the queue holds `start_index`, and
`current_layer = 0`.  The fuel `adj.length + 1` is proved sufficient for
every well-formed graph. -/
def bfsWithParents (adj : List (List Nat)) (startIdx endIdx : Nat) :
    Option (List (List Nat) × Nat) :=
  bfsLoop adj endIdx (adj.length + 1)
    ((List.replicate adj.length UNREACHED).set startIdx 0)
    (List.replicate adj.length []) [startIdx] 0

/-- The iterative backtracking loop of `all_shortest_paths`: pop a partial
path (stored end-first); if its last node is the start, reverse it into the
result list, otherwise push one extension per recorded parent (in parent
list order, so the last parent ends on top of the stack). -/
def backtrackLoop (parents : List (List Nat)) (startIdx : Nat) :
    Nat → List (List Nat) → List (List Nat) → Option (List (List Nat))
  | _, [], paths => some paths
  | 0, _ :: _, _ => none
  | fuel + 1, cur :: stack, paths =>
    if cur.getLastD 0 = startIdx then
      backtrackLoop parents startIdx fuel stack (paths ++ [cur.reverse])
    else
      backtrackLoop parents startIdx fuel
        ((parents.getD (cur.getLastD 0) []).foldl (fun st p => (cur ++ [p]) :: st) stack)
        paths

/-- Largest parent-list length, used to size the backtracking fuel. -/
def maxRowLen (l : List (List Nat)) : Nat := l.foldr (fun r m => max r.length m) 0

/-- `PageGraph::all_shortest_paths`: return no paths when either endpoint is
out of bounds; run the BFS; when `dist[end_index]` is reached, enumerate
all paths by iterative backtracking from `end_index`, else return no
paths.  The backtracking fuel is proved sufficient whenever the parent
lists come from the BFS. -/
def allShortestPaths (adj : List (List Nat)) (startIdx endIdx : Nat) :
    Option (List (List Nat)) :=
  if adj.length ≤ startIdx ∨ adj.length ≤ endIdx then some []
  else
    match bfsWithParents adj startIdx endIdx with
    | none => none
    | some (parents, dres) =>
      if dres ≠ UNREACHED then
        backtrackLoop parents startIdx ((maxRowLen parents + 2) ^ (dres + 2)) [[endIdx]] []
      else some []

/-! ## Ground truth: directed paths and distances of an adjacency list -/

/-- `PathTo adj s v n`: some walk of exactly `n` edges of the adjacency list
leads from `s` to `v`. -/
inductive PathTo (adj : List (List Nat)) (s : Nat) : Nat → Nat → Prop
  | refl : PathTo adj s s 0
  | step {u v n} : PathTo adj s u n → v ∈ adj.getD u [] → PathTo adj s v (n + 1)

/-- `v` is reachable from `s` in the adjacency list. -/
def Reaches (adj : List (List Nat)) (s v : Nat) : Prop := ∃ n, PathTo adj s v n

/-- Graph distance from `s` to `v` (meaningful only when `Reaches adj s v`). -/
noncomputable def gdist (adj : List (List Nat)) (s v : Nat) : Nat :=
  sInf {n | PathTo adj s v n}

/-- A nonempty node sequence from `s` to `e` whose consecutive pairs are
edges of the adjacency list. -/
def ValidPath (adj : List (List Nat)) (s e : Nat) (p : List Nat) : Prop :=
  p.head? = some s ∧ p.getLast? = some e ∧ p.Chain' (fun u v => v ∈ adj.getD u [])

/-- The invariant of claim C4: every index stored as a lookup value and both
components of every accumulated edge are below the page count. -/
def LoaderInv (st : LoaderState) : Prop :=
  (∀ kp ∈ st.pageIdIndex, kp.2 < st.pages.length) ∧
  (∀ kp ∈ st.titleIndex, kp.2 < st.pages.length) ∧
  (∀ kp ∈ st.linktargetIndex, kp.2 < st.pages.length) ∧
  ∀ ed ∈ st.links, ed.1 < st.pages.length ∧ ed.2 < st.pages.length

/-! ## Proof-layer definitions for the BFS verification -/

/-- Number of in-range nodes already assigned a distance. -/
def reachedCount (n : Nat) (dist : List Nat) : Nat :=
  ((List.range n).filter (fun v => decide (dist.getD v UNREACHED ≠ UNREACHED))).length

/-- The loop invariant of `bfs_with_parents`, holding at every loop head.
`dist`/`parents` have one slot per node; assigned distances are sound path
lengths bounded by the count of reached nodes; the queue holds exactly the
reached-but-unscanned nodes, split into (at most) two consecutive layers
`k`/`k + 1`; scanned nodes have relaxed all their out-edges; a node's
parent list holds exactly the scanned in-neighbors one layer above it; and
once the end node is reached its distance is at most `current_layer + 1`. -/
structure BfsInv (adj : List (List Nat)) (s e : Nat) (dist : List Nat)
    (parents : List (List Nat)) (queue : List Nat) (cur : Nat) : Prop where
  distLen : dist.length = adj.length
  parLen : parents.length = adj.length
  startZero : dist.getD s UNREACHED = 0
  qMem : ∀ v ∈ queue, v < adj.length ∧ dist.getD v UNREACHED ≠ UNREACHED
  qNodup : queue.Nodup
  sound : ∀ v, dist.getD v UNREACHED ≠ UNREACHED →
    PathTo adj s v (dist.getD v UNREACHED)
  count : ∀ v, dist.getD v UNREACHED ≠ UNREACHED →
    dist.getD v UNREACHED < reachedCount adj.length dist
  scanned : ∀ u, u < adj.length → dist.getD u UNREACHED ≠ UNREACHED →
    u ∉ queue → ∀ v ∈ adj.getD u [],
      dist.getD v UNREACHED ≠ UNREACHED ∧
      dist.getD v UNREACHED ≤ dist.getD u UNREACHED + 1
  procCur : ∀ v, dist.getD v UNREACHED ≠ UNREACHED → v ∉ queue →
    dist.getD v UNREACHED ≤ cur
  layers : ∃ k q1 q2, queue = q1 ++ q2 ∧ cur ≤ k ∧
    (∀ v ∈ q1, dist.getD v UNREACHED = k) ∧
    (∀ v ∈ q2, dist.getD v UNREACHED = k + 1) ∧
    (∀ v, dist.getD v UNREACHED ≠ UNREACHED → dist.getD v UNREACHED ≤ k + 1)
  eClose : dist.getD e UNREACHED ≠ UNREACHED →
    dist.getD e UNREACHED ≤ cur + 1
  parChar : ∀ v w, w ∈ parents.getD v [] ↔
    (w < adj.length ∧ dist.getD w UNREACHED ≠ UNREACHED ∧ w ∉ queue ∧
     v ∈ adj.getD w [] ∧
     dist.getD v UNREACHED = dist.getD w UNREACHED + 1)

/-- What the BFS loop guarantees on termination: the returned
`dist[end_index]` is `UNREACHED` exactly for an unreachable end node and
is otherwise the exact graph distance, and the parent list of every
reachable node within distance `dres` of the start holds exactly its
in-neighbors one layer closer to the start. -/
def BfsPost (adj : List (List Nat)) (s e : Nat) (parents : List (List Nat))
    (dres : Nat) : Prop :=
  (dres ≠ UNREACHED ↔ Reaches adj s e) ∧
  (dres ≠ UNREACHED → PathTo adj s e dres ∧ ∀ m, PathTo adj s e m → dres ≤ m) ∧
  (∀ v w, Reaches adj s v → gdist adj s v ≤ dres →
    (w ∈ parents.getD v [] ↔
      (v ∈ adj.getD w [] ∧ Reaches adj s w ∧
        gdist adj s w + 1 = gdist adj s v)))

/-- A descent through the parent lists: from node `v`, repeatedly step to a
recorded parent until the start node is reached; the loop stops exactly at
the start node, even before consuming more parents. -/
inductive Desc (parents : List (List Nat)) (s : Nat) : Nat → List Nat → Prop
  | done : Desc parents s s []
  | step {v w : Nat} {tail : List Nat} : v ≠ s → w ∈ parents.getD v [] →
      Desc parents s w tail → Desc parents s v (w :: tail)

/-! ## Small-step lemmas for the embedded loops -/

lemma bfsLoop_nil (adj : List (List Nat)) (e fuel : Nat) (dist : List Nat)
    (parents : List (List Nat)) (cur : Nat) :
    bfsLoop adj e fuel dist parents [] cur = some (parents, dist.getD e UNREACHED) := by
  cases fuel <;> rfl

lemma bfsLoop_cons_break (adj : List (List Nat)) (e fuel : Nat) (dist : List Nat)
    (parents : List (List Nat)) (u : Nat) (rest : List Nat) (cur : Nat)
    (h : cur < dist.getD u UNREACHED ∧ dist.getD e UNREACHED ≠ UNREACHED) :
    bfsLoop adj e (fuel + 1) dist parents (u :: rest) cur =
      some (parents, dist.getD e UNREACHED) := by
  rw [bfsLoop, if_pos h]

lemma bfsLoop_cons_go (adj : List (List Nat)) (e fuel : Nat) (dist : List Nat)
    (parents : List (List Nat)) (u : Nat) (rest : List Nat) (cur : Nat)
    (h : ¬(cur < dist.getD u UNREACHED ∧ dist.getD e UNREACHED ≠ UNREACHED)) :
    bfsLoop adj e (fuel + 1) dist parents (u :: rest) cur =
      bfsLoop adj e fuel (scanRow u (adj.getD u []) dist parents rest).1
        (scanRow u (adj.getD u []) dist parents rest).2.1
        (scanRow u (adj.getD u []) dist parents rest).2.2
        (if cur < dist.getD u UNREACHED then dist.getD u UNREACHED else cur) := by
  rw [bfsLoop, if_neg h]

lemma scanRow_nil (u : Nat) (dist : List Nat) (parents : List (List Nat))
    (queue : List Nat) :
    scanRow u [] dist parents queue = (dist, parents, queue) := rfl

lemma scanRow_cons_fresh (u v : Nat) (vs : List Nat) (dist : List Nat)
    (parents : List (List Nat)) (queue : List Nat)
    (h : dist.getD v UNREACHED = UNREACHED) :
    scanRow u (v :: vs) dist parents queue =
      scanRow u vs (dist.set v (dist.getD u UNREACHED + 1))
        (parents.set v (parents.getD v [] ++ [u])) (queue ++ [v]) := by
  rw [scanRow, if_pos h]

lemma scanRow_cons_layer (u v : Nat) (vs : List Nat) (dist : List Nat)
    (parents : List (List Nat)) (queue : List Nat)
    (h : dist.getD v UNREACHED ≠ UNREACHED)
    (h2 : dist.getD v UNREACHED = dist.getD u UNREACHED + 1) :
    scanRow u (v :: vs) dist parents queue =
      scanRow u vs dist (parents.set v (parents.getD v [] ++ [u])) queue := by
  rw [scanRow, if_neg h, if_pos h2]

lemma scanRow_cons_skip (u v : Nat) (vs : List Nat) (dist : List Nat)
    (parents : List (List Nat)) (queue : List Nat)
    (h : dist.getD v UNREACHED ≠ UNREACHED)
    (h2 : dist.getD v UNREACHED ≠ dist.getD u UNREACHED + 1) :
    scanRow u (v :: vs) dist parents queue = scanRow u vs dist parents queue := by
  rw [scanRow, if_neg h, if_neg h2]

lemma backtrackLoop_nil (parents : List (List Nat)) (s fuel : Nat)
    (paths : List (List Nat)) :
    backtrackLoop parents s fuel [] paths = some paths := by
  cases fuel <;> rfl

lemma backtrackLoop_cons_found (parents : List (List Nat)) (s fuel : Nat)
    (cur : List Nat) (stack paths : List (List Nat)) (h : cur.getLastD 0 = s) :
    backtrackLoop parents s (fuel + 1) (cur :: stack) paths =
      backtrackLoop parents s fuel stack (paths ++ [cur.reverse]) := by
  rw [backtrackLoop, if_pos h]

lemma backtrackLoop_cons_expand (parents : List (List Nat)) (s fuel : Nat)
    (cur : List Nat) (stack paths : List (List Nat)) (h : cur.getLastD 0 ≠ s) :
    backtrackLoop parents s (fuel + 1) (cur :: stack) paths =
      backtrackLoop parents s fuel
        ((parents.getD (cur.getLastD 0) []).foldl (fun st p => (cur ++ [p]) :: st) stack)
        paths := by
  rw [backtrackLoop, if_neg h]

/-! ## The tuple parser on concrete dump lines (claims C3, C5, C6) -/

/-- C6: Parsing the line `INSERT INTO x VALUES (1,0,'A_B',0),(2,0,'C',1);`
with the page-line parser yields exactly two records,
`(page_id 1, title "A B", is_redirect false)` and
`(page_id 2, title "C", is_redirect true)`: the line is stripped through
the first `(` and of the trailing `);`, split on the literal sequence
`),(`, and each tuple's fields are decoded in order. -/
theorem C6_page_line_split :
    pageParseLine "INSERT INTO x VALUES (1,0,'A_B',0),(2,0,'C',1);".toList =
      [(1, ⟨"A B".toList, false⟩), (2, ⟨"C".toList, true⟩)] ∧
    extractTuples "INSERT INTO x VALUES (1,0,'A_B',0),(2,0,'C',1);".toList =
      ["1,0,'A_B',0".toList, "2,0,'C',1".toList] :=
  ⟨rfl, rfl⟩

/-- C3, evaluated at the spec's own example: `next_string` looks for the end
of the literal with `m_tuple.find('\'', start)`, which stops at the first
quote even when that quote is escaped.  On the page tuple
`(7,0,'O\'Neil\\s',0)` the scanned slice is `O\`, the decode loop ends in
escape state, `next_string` returns `false`, and the whole row is silently
dropped — instead of succeeding with title `O'Neil\s` as the spec states.
(The slow path's `c == '\''` branch is dead code: a slice delimited by the
first quote can never contain a quote, which shows the escaped-quote
handling was intended and the end-of-literal scan is the slip.) -/
theorem C3_escaped_quote_drops_row :
    nextString "7,0,'O\\'Neil\\\\s',0".toList 3 = none ∧
    pageParseLine "INSERT INTO x VALUES (7,0,'O\\'Neil\\\\s',0);".toList = [] :=
  ⟨rfl, rfl⟩

/-- C5 fails as stated: on the literal `'a\nb'` the code returns `ab`, not
`anb` — for an escaped character other than a quote or a backslash the
decode loop drops both the backslash and the character. -/
theorem C5_counterexample :
    nextString "'a\\nb'".toList 0 = some ("ab".toList, 6) ∧
    ("ab".toList : List Char) ≠ "anb".toList :=
  ⟨rfl, by decide⟩

/-- C5 (amended): the escape decoding of `next_string` maps `\\` to `\` and
`\'` to `'`, drops any other `\x` entirely (backslash and `x` both
removed — `c` ranges over every character other than a quote or a
backslash, so escaped underscores are covered too), turns every unescaped
`_` into a space, and copies every other unescaped character (`d` ranges
over every character other than a backslash or an underscore). -/
theorem C5_escape_decoding (c d : Char) (hq : c ≠ '\'') (hb : c ≠ '\\')
    (hd1 : d ≠ '\\') (hd2 : d ≠ '_') (r : List Char) :
    slowDecode false ('\\' :: '\\' :: r) = (slowDecode false r).map ('\\' :: ·) ∧
    slowDecode false ('\\' :: '\'' :: r) = (slowDecode false r).map ('\'' :: ·) ∧
    slowDecode false ('\\' :: c :: r) = slowDecode false r ∧
    slowDecode false ('_' :: r) = (slowDecode false r).map (' ' :: ·) ∧
    slowDecode false (d :: r) = (slowDecode false r).map (d :: ·) := by
  refine ⟨?_, ?_, ?_, ?_, ?_⟩ <;> simp [slowDecode, hq, hb, hd1, hd2]

/-- Witness for `C5_escape_decoding` at `c := '_'` (an escaped underscore,
dropped entirely), `d := 'x'`, `r := ['q']`. -/
theorem C5_escape_decoding_witness :
    slowDecode false ('\\' :: '\\' :: ['q']) = (slowDecode false ['q']).map ('\\' :: ·) ∧
    slowDecode false ('\\' :: '\'' :: ['q']) = (slowDecode false ['q']).map ('\'' :: ·) ∧
    slowDecode false ('\\' :: '_' :: ['q']) = slowDecode false ['q'] ∧
    slowDecode false ('_' :: ['q']) = (slowDecode false ['q']).map (' ' :: ·) ∧
    slowDecode false ('x' :: ['q']) = (slowDecode false ['q']).map ('x' :: ·) :=
  C5_escape_decoding '_' 'x' (by decide) (by decide) (by decide) (by decide) ['q']

/-! ## The link counter (claim C9) -/

lemma foldl_buildStep_numberOfLinks :
    ∀ (links : List (Nat × Nat)) (g : PageGraphRepr), g.numberOfLinks < 2 ^ 32 →
      (links.foldl buildStep g).numberOfLinks =
        (g.numberOfLinks + links.length) % 2 ^ 32
  | [], g, h => by simpa using (Nat.mod_eq_of_lt h).symm
  | l :: ls, g, h => by
    rw [List.foldl_cons,
      foldl_buildStep_numberOfLinks ls _ (Nat.mod_lt _ (by norm_num))]
    show ((g.numberOfLinks + 1) % 2 ^ 32 + ls.length) % 2 ^ 32 = _
    rw [Nat.mod_add_mod]
    congr 1
    simp [Nat.add_assoc, Nat.add_comm 1 ls.length]

lemma buildGraph_numberOfLinks (pages : List Page) (links : List (Nat × Nat)) :
    (buildGraph pages links).numberOfLinks = links.length % 2 ^ 32 := by
  unfold buildGraph
  rw [foldl_buildStep_numberOfLinks links _ (by norm_num)]
  simp

/-- C9 is false as stated: `number_of_links` is a `uint32_t` (and
`get_number_of_links` returns `uint32_t`, not `uint64_t`), so an edge list
of `2 ^ 32` edges wraps the counter to `0`. -/
theorem C9_counterexample :
    (buildGraph [⟨[], false⟩] (List.replicate (2 ^ 32) (0, 0))).numberOfLinks = 0 ∧
    (List.replicate (2 ^ 32) ((0 : Nat), (0 : Nat))).length = 2 ^ 32 ∧
    (0 : Nat) ≠ 2 ^ 32 := by
  refine ⟨?_, List.length_replicate _ _, by norm_num⟩
  rw [buildGraph_numberOfLinks, List.length_replicate, Nat.mod_self]

/-- C9 (amended): `get_number_of_links` returns the number of edges
inserted into the adjacency list reduced modulo `2 ^ 32` (its counter is a
`uint32_t`) — exact precisely for edge lists of fewer than `2 ^ 32`
edges. -/
theorem C9_link_count_mod (pages : List Page) (links : List (Nat × Nat)) :
    (buildGraph pages links).numberOfLinks = links.length % 2 ^ 32 :=
  buildGraph_numberOfLinks pages links

/-! ## Parallel edges duplicate shortest paths (claim C2) -/

lemma scanRow_replicate_ones (k : Nat) (l q : List Nat) :
    scanRow 0 (List.replicate k 1) [0, 1] [[], l] q =
      ([0, 1], [[], l ++ List.replicate k 0], q) := by
  induction k generalizing l with
  | zero => simp [scanRow]
  | succ k ih =>
    rw [List.replicate_succ,
      scanRow_cons_layer 0 1 _ _ _ _ (by decide) (by decide)]
    have hset : (([[], l] : List (List Nat)).set 1
        (([[], l] : List (List Nat)).getD 1 [] ++ [0])) = [[], l ++ [0]] := rfl
    rw [hset, ih]
    simp [List.replicate_succ, List.append_assoc]

/-- The BFS on the two-node graph whose single source row is `n + 1` copies
of the destination records the parent `0` once per parallel edge. -/
lemma bfs_multi_edge (n : Nat) :
    bfsWithParents [List.replicate (n + 1) 1, []] 0 1 =
      some ([[], List.replicate (n + 1) 0], 1) := by
  unfold bfsWithParents
  have hlen : ([List.replicate (n + 1) 1, []] : List (List Nat)).length = 2 := rfl
  rw [hlen]
  have hd : ((List.replicate 2 UNREACHED).set 0 0) = [0, UNREACHED] := rfl
  have hp : (List.replicate 2 ([] : List Nat)) = [[], []] := rfl
  rw [hd, hp, bfsLoop_cons_go _ _ _ _ _ _ _ _ (by decide)]
  have hrow : ([List.replicate (n + 1) 1, []] : List (List Nat)).getD 0 [] =
      List.replicate (n + 1) 1 := rfl
  rw [hrow, List.replicate_succ, scanRow_cons_fresh _ _ _ _ _ _ (by decide)]
  have h1 : (([0, UNREACHED] : List Nat).set 1
      (([0, UNREACHED] : List Nat).getD 0 UNREACHED + 1)) = [0, 1] := rfl
  have h2 : (([[], []] : List (List Nat)).set 1
      (([[], []] : List (List Nat)).getD 1 [] ++ [0])) = [[], [0]] := rfl
  have h3 : (([] : List Nat) ++ [1]) = [1] := rfl
  rw [h1, h2, h3, scanRow_replicate_ones]
  have h4 : ([0] ++ List.replicate n 0) = List.replicate (n + 1) 0 := by
    simp [List.replicate_succ]
  simp only [h4]
  rw [bfsLoop_cons_break _ _ _ _ _ _ _ _ (by decide)]
  rfl

lemma foldl_push_replicate (k : Nat) (cur : List Nat) (stack : List (List Nat)) :
    (List.replicate k 0).foldl (fun st p => (cur ++ [p]) :: st) stack =
      List.replicate k (cur ++ [0]) ++ stack := by
  induction k generalizing stack with
  | zero => rfl
  | succ k ih =>
    rw [List.replicate_succ, List.foldl_cons, ih]
    simp [List.replicate_succ', List.append_assoc]

lemma backtrack_replicate (k : Nat) (parents : List (List Nat)) (fuel : Nat)
    (h : k ≤ fuel) (paths : List (List Nat)) :
    backtrackLoop parents 0 fuel (List.replicate k [1, 0]) paths =
      some (paths ++ List.replicate k [0, 1]) := by
  induction k generalizing fuel paths with
  | zero => simp [backtrackLoop_nil]
  | succ k ih =>
    obtain ⟨f, rfl⟩ : ∃ f, fuel = f + 1 := ⟨fuel - 1, by omega⟩
    rw [List.replicate_succ, backtrackLoop_cons_found _ _ _ _ _ _ (by decide),
      ih f (by omega)]
    simp [List.replicate_succ, List.append_assoc]

/-- C2 is false as stated: on the two-node graph with the doubled edge
`0 → 1`, `all_shortest_paths 0 1` returns the unique shortest path `[0, 1]`
twice — the BFS appends the parent `0` once per occurrence of `1` in the
source row, so the path is duplicated per parallel edge rather than
returned exactly once. -/
theorem C2_counterexample :
    allShortestPaths [[1, 1], []] 0 1 = some [[0, 1], [0, 1]] ∧
    ([[0, 1], [0, 1]] : List (List Nat)).count [0, 1] ≠ 1 :=
  ⟨rfl, by decide⟩

/-- C2 (amended): with parallel edges, each shortest path through the
duplicated pair is returned once per parallel edge: on the two-node graph
whose source row holds `n ≥ 1` copies of destination `1`, the query
`(0, 1)` returns the path `[0, 1]` exactly `n` times. -/
theorem C2_each_path_once_per_edge (n : Nat) (h : 1 ≤ n) :
    allShortestPaths [List.replicate n 1, []] 0 1 =
      some (List.replicate n [0, 1]) := by
  obtain ⟨m, rfl⟩ : ∃ m, n = m + 1 := ⟨n - 1, by omega⟩
  unfold allShortestPaths
  rw [if_neg (by simp), bfs_multi_edge]
  show (if (1 : Nat) ≠ UNREACHED then _ else _) = _
  rw [if_pos (by decide)]
  have hmax : maxRowLen [[], List.replicate (m + 1) 0] = m + 1 := by
    simp [maxRowLen]
  have hfuel : ∃ f, (maxRowLen [[], List.replicate (m + 1) 0] + 2) ^ (1 + 2) = f + 1 ∧
      m + 1 ≤ f := by
    rw [hmax]
    have h3 : m + 3 ≤ (m + 3) ^ 3 := Nat.le_self_pow (by norm_num) _
    refine ⟨(m + 3) ^ 3 - 1, ?_, by omega⟩
    have hpow : (m + 1 + 2) ^ (1 + 2) = (m + 3) ^ 3 := by norm_num
    omega
  obtain ⟨f, hf, hmf⟩ := hfuel
  rw [hf, backtrackLoop_cons_expand _ _ _ _ _ _ (by decide)]
  have hpar : (([[], List.replicate (m + 1) 0] : List (List Nat)).getD
      (([1] : List Nat).getLastD 0) []) = List.replicate (m + 1) 0 := rfl
  rw [hpar]
  have hstack : (List.replicate (m + 1) 0).foldl
      (fun st p => (([1] : List Nat) ++ [p]) :: st) ([] : List (List Nat)) =
      List.replicate (m + 1) [1, 0] := by
    rw [foldl_push_replicate]
    simp
  rw [hstack, backtrack_replicate (m + 1) _ f hmf]
  simp

/-- Witness for `C2_each_path_once_per_edge` at `n := 2`. -/
theorem C2_each_path_once_per_edge_witness :
    1 ≤ 2 ∧ allShortestPaths [List.replicate 2 1, []] 0 1 =
      some (List.replicate 2 [0, 1]) :=
  ⟨by decide, C2_each_path_once_per_edge 2 (by decide)⟩

/-! ## Loader index invariant (claim C4) -/

lemma alookup_mem {α : Type} [DecidableEq α] {m : List (α × Nat)} {k : α} {v : Nat}
    (h : alookup m k = some v) : ∃ kp ∈ m, kp.2 = v := by
  induction m with
  | nil => simp [alookup] at h
  | cons a rest ih =>
    obtain ⟨k', v'⟩ := a
    rw [alookup] at h
    by_cases hk : k' = k
    · rw [if_pos hk] at h
      exact ⟨(k', v'), List.mem_cons_self _ _, by simpa using h⟩
    · rw [if_neg hk] at h
      obtain ⟨kp, hmem, hval⟩ := ih h
      exact ⟨kp, List.mem_cons_of_mem _ hmem, hval⟩

lemma emplace_subset {α : Type} [DecidableEq α] (m : List (α × Nat)) (k : α) (w : Nat) :
    ∀ kp ∈ emplace m k w, kp ∈ m ∨ kp = (k, w) := by
  intro kp hkp
  unfold emplace at hkp
  cases h : alookup m k with
  | some v => rw [h] at hkp; exact Or.inl hkp
  | none =>
    rw [h] at hkp
    rcases List.mem_append.mp hkp with h1 | h1
    · exact Or.inl h1
    · simp only [List.mem_singleton] at h1
      exact Or.inr h1

lemma insertPage_inv {st : LoaderState} (h : LoaderInv st) (pid : Nat) (pg : Page) :
    LoaderInv (insertPage st pid pg) := by
  obtain ⟨h1, h2, h3, h4⟩ := h
  have hlen : (insertPage st pid pg).pages.length = st.pages.length + 1 := by
    simp [insertPage]
  have hidx : st.pages.length % 2 ^ 32 < st.pages.length + 1 :=
    Nat.lt_succ_of_le (Nat.mod_le _ _)
  refine ⟨?_, ?_, ?_, ?_⟩ <;> rw [hlen]
  · intro kp hkp
    rcases emplace_subset _ _ _ kp hkp with hm | rfl
    · exact Nat.lt_succ_of_lt (h1 kp hm)
    · exact hidx
  · intro kp hkp
    rcases emplace_subset _ _ _ kp hkp with hm | rfl
    · exact Nat.lt_succ_of_lt (h2 kp hm)
    · exact hidx
  · intro kp hkp
    exact Nat.lt_succ_of_lt (h3 kp hkp)
  · intro ed hed
    exact ⟨Nat.lt_succ_of_lt (h4 ed hed).1, Nat.lt_succ_of_lt (h4 ed hed).2⟩

lemma foldl_inv {β : Type} (f : LoaderState → β → LoaderState)
    (hf : ∀ s b, LoaderInv s → LoaderInv (f s b)) :
    ∀ (l : List β) (s : LoaderState), LoaderInv s → LoaderInv (l.foldl f s)
  | [], s, h => h
  | b :: l, s, h => by
    rw [List.foldl_cons]
    exact foldl_inv f hf l (f s b) (hf s b h)

lemma insertPages_inv {st : LoaderState} (h : LoaderInv st)
    (batch : List (Nat × Page)) : LoaderInv (insertPages st batch) :=
  foldl_inv _ (fun _ b hs => insertPage_inv hs b.1 b.2) batch st h

lemma linktargetStep_inv {st : LoaderState} (h : LoaderInv st) (lt : Nat × List Char) :
    LoaderInv (linktargetStep st lt) := by
  obtain ⟨h1, h2, h3, h4⟩ := h
  unfold linktargetStep
  cases hl : alookup st.titleIndex lt.2 with
  | none => exact ⟨h1, h2, h3, h4⟩
  | some idx =>
    have hidx : idx < st.pages.length := by
      obtain ⟨kp, hmem, hval⟩ := alookup_mem hl
      exact hval ▸ h2 kp hmem
    refine ⟨h1, h2, ?_, h4⟩
    intro kp hkp
    rcases emplace_subset _ _ _ kp hkp with hm | rfl
    · exact h3 kp hm
    · exact hidx

lemma linkStep_inv {st : LoaderState} (h : LoaderInv st) (l : Nat × Nat) :
    LoaderInv (linkStep st l) := by
  obtain ⟨h1, h2, h3, h4⟩ := h
  unfold linkStep
  cases hf : alookup st.pageIdIndex l.1 with
  | none => exact ⟨h1, h2, h3, h4⟩
  | some fi =>
    cases ht : alookup st.linktargetIndex l.2 with
    | none => exact ⟨h1, h2, h3, h4⟩
    | some ti =>
      refine ⟨h1, h2, h3, ?_⟩
      intro ed hed
      rcases List.mem_append.mp hed with hm | hm
      · exact h4 ed hm
      · simp only [List.mem_singleton] at hm
        subst hm
        constructor
        · obtain ⟨kp, hmem, hval⟩ := alookup_mem hf
          exact hval ▸ h1 kp hmem
        · obtain ⟨kp, hmem, hval⟩ := alookup_mem ht
          exact hval ▸ h3 kp hmem

lemma runPipeline_inv (pageBatches : List (List (Nat × Page)))
    (ltBatches : List (List (Nat × List Char)))
    (linkBatches : List (List (Nat × Nat))) :
    LoaderInv (runPipeline pageBatches ltBatches linkBatches) := by
  unfold runPipeline
  apply foldl_inv insertLinks (fun s b hs => foldl_inv linkStep
    (fun _ b' hs' => linkStep_inv hs' b') b s hs)
  apply foldl_inv insertLinktargets (fun s b hs => foldl_inv linktargetStep
    (fun _ b' hs' => linktargetStep_inv hs' b') b s hs)
  apply foldl_inv insertPages (fun _ b hs => insertPages_inv hs b)
  exact ⟨by simp [initialLoaderState], by simp [initialLoaderState],
    by simp [initialLoaderState], by simp [initialLoaderState]⟩

lemma foldl_buildStep_length (links : List (Nat × Nat)) :
    ∀ g : PageGraphRepr, (links.foldl buildStep g).adjacencyList.length =
      g.adjacencyList.length := by
  induction links with
  | nil => intro g; rfl
  | cons l ls ih =>
    intro g
    rw [List.foldl_cons, ih]
    simp [buildStep]

lemma buildGraph_adj_length (pages : List Page) (links : List (Nat × Nat)) :
    (buildGraph pages links).adjacencyList.length = pages.length := by
  unfold buildGraph
  rw [foldl_buildStep_length]
  simp

lemma getD_row_bound {g : List (List Nat)} {n : Nat}
    (h : ∀ row ∈ g, ∀ v ∈ row, v < n) (i : Nat) :
    ∀ v ∈ g.getD i [], v < n := by
  rcases hlt : g.get? i with _ | row
  · intro v hv
    rw [List.getD_eq_getElem?_getD, ← List.get?_eq_getElem?, hlt] at hv
    simp at hv
  · intro v hv
    rw [List.getD_eq_getElem?_getD, ← List.get?_eq_getElem?, hlt] at hv
    exact h row (List.get?_mem hlt) v hv

lemma foldl_buildStep_bound {n : Nat} (links : List (Nat × Nat)) :
    ∀ g : PageGraphRepr, (∀ row ∈ g.adjacencyList, ∀ v ∈ row, v < n) →
      (∀ ed ∈ links, ed.2 < n) →
      ∀ row ∈ (links.foldl buildStep g).adjacencyList, ∀ v ∈ row, v < n := by
  induction links with
  | nil => intro g hg _; exact hg
  | cons l ls ih =>
    intro g hg hl
    rw [List.foldl_cons]
    apply ih
    · intro row hrow v hv
      rcases List.mem_or_eq_of_mem_set hrow with hm | rfl
      · exact hg row hm v hv
      · rcases List.mem_append.mp hv with hm | hm
        · exact getD_row_bound hg l.1 v hm
        · simp only [List.mem_singleton] at hm
          subst hm
          exact hl l (List.mem_cons_self _ _)
    · intro ed hed
      exact hl ed (List.mem_cons_of_mem _ hed)

lemma buildGraph_adj_bound {n : Nat} (pages : List Page) (links : List (Nat × Nat))
    (h : ∀ ed ∈ links, ed.2 < n) :
    ∀ row ∈ (buildGraph pages links).adjacencyList, ∀ v ∈ row, v < n := by
  unfold buildGraph
  apply foldl_buildStep_bound links _ _ h
  intro row hrow
  rw [List.eq_of_mem_replicate hrow]
  intro v hv
  simp at hv

/-- C4: after any run of the loader pipeline, every page index stored as a
value of `page_id_index`, of `title_index`, or of `linktarget_index`, and
both components of every edge appended to the edge list, are strictly
below the number of pages in the page vector; consequently the built
graph has one adjacency row per page and every destination index in any
adjacency row is strictly below the page count. -/
theorem C4_indices_below_page_count
    (pageBatches : List (List (Nat × Page)))
    (ltBatches : List (List (Nat × List Char)))
    (linkBatches : List (List (Nat × Nat))) :
    (∀ kp ∈ (runPipeline pageBatches ltBatches linkBatches).pageIdIndex,
        kp.2 < (runPipeline pageBatches ltBatches linkBatches).pages.length) ∧
    (∀ kp ∈ (runPipeline pageBatches ltBatches linkBatches).titleIndex,
        kp.2 < (runPipeline pageBatches ltBatches linkBatches).pages.length) ∧
    (∀ kp ∈ (runPipeline pageBatches ltBatches linkBatches).linktargetIndex,
        kp.2 < (runPipeline pageBatches ltBatches linkBatches).pages.length) ∧
    (∀ ed ∈ (runPipeline pageBatches ltBatches linkBatches).links,
        ed.1 < (runPipeline pageBatches ltBatches linkBatches).pages.length ∧
        ed.2 < (runPipeline pageBatches ltBatches linkBatches).pages.length) ∧
    (buildGraph (runPipeline pageBatches ltBatches linkBatches).pages
        (runPipeline pageBatches ltBatches linkBatches).links).adjacencyList.length =
      (runPipeline pageBatches ltBatches linkBatches).pages.length ∧
    ∀ row ∈ (buildGraph (runPipeline pageBatches ltBatches linkBatches).pages
        (runPipeline pageBatches ltBatches linkBatches).links).adjacencyList,
      ∀ v ∈ row, v < (runPipeline pageBatches ltBatches linkBatches).pages.length := by
  obtain ⟨h1, h2, h3, h4⟩ := runPipeline_inv pageBatches ltBatches linkBatches
  exact ⟨h1, h2, h3, h4, buildGraph_adj_length _ _,
    buildGraph_adj_bound _ _ (fun ed hed => (h4 ed hed).2)⟩


/-! ## Out-of-range queries (claim C10) -/

/-- C10: when either endpoint is at least the number of pages (also in the
empty graph), `all_shortest_paths` returns the empty path list from its
bounds guard, before the BFS runs or any adjacency row is read. -/
theorem C10_out_of_range (adj : List (List Nat)) (s e : Nat)
    (h : adj.length ≤ s ∨ adj.length ≤ e) :
    allShortestPaths adj s e = some [] := by
  unfold allShortestPaths
  rw [if_pos h]

/-- Witness for `C10_out_of_range` on the empty graph at `(0, 0)`. -/
theorem C10_out_of_range_witness :
    ([] : List (List Nat)).length ≤ 0 ∧ allShortestPaths [] 0 0 = some [] :=
  ⟨by decide, C10_out_of_range [] 0 0 (Or.inl (by decide))⟩

/-! ### getD/set helpers -/

lemma getD_set_self {α : Type} {l : List α} {i : Nat} {a d : α} (h : i < l.length) :
    (l.set i a).getD i d = a := by
  rw [List.getD_eq_getElem?_getD, List.getElem?_set_eq_of_lt _ h]
  rfl

lemma getD_set_ne {α : Type} {l : List α} {i j : Nat} {a d : α} (h : i ≠ j) :
    (l.set i a).getD j d = l.getD j d := by
  rw [List.getD_eq_getElem?_getD, List.getElem?_set_ne h, ← List.getD_eq_getElem?_getD]

lemma getD_mem_or {α : Type} (l : List α) (i : Nat) (d : α) :
    l.getD i d ∈ l ∨ l.getD i d = d := by
  rcases hlt : l.get? i with _ | row
  · right
    rw [List.getD_eq_getElem?_getD, ← List.get?_eq_getElem?, hlt]
    rfl
  · left
    rw [List.getD_eq_getElem?_getD, ← List.get?_eq_getElem?, hlt]
    exact List.get?_mem hlt

/-! ### reached count -/

lemma reachedCount_le (n : Nat) (dist : List Nat) : reachedCount n dist ≤ n := by
  calc ((List.range n).filter _).length ≤ (List.range n).length :=
        List.length_filter_le _ _
    _ = n := List.length_range n

lemma reachedCount_set_fresh {n : Nat} {dist : List Nat} {v val : Nat}
    (hv : v < n) (hvd : v < dist.length)
    (hfresh : dist.getD v UNREACHED = UNREACHED) (hval : val ≠ UNREACHED) :
    reachedCount n (dist.set v val) = reachedCount n dist + 1 := by
  unfold reachedCount
  have key : ∀ m : Nat, v < m →
      ((List.range m).filter (fun w => decide ((dist.set v val).getD w UNREACHED ≠ UNREACHED))).length =
      ((List.range m).filter (fun w => decide (dist.getD w UNREACHED ≠ UNREACHED))).length + 1 := by
    intro m hm
    induction m with
    | zero => omega
    | succ m ih =>
      rw [List.range_succ, List.filter_append, List.filter_append,
        List.length_append, List.length_append]
      by_cases hvm : v < m
      · rw [ih hvm]
        have hsame : ([m].filter (fun w => decide ((dist.set v val).getD w UNREACHED ≠ UNREACHED))) =
            ([m].filter (fun w => decide (dist.getD w UNREACHED ≠ UNREACHED))) := by
          apply List.filter_congr
          intro w hw
          simp only [List.mem_singleton] at hw
          subst hw
          have hne : v ≠ w := by omega
          rw [getD_set_ne hne]
        rw [hsame]
        omega
      · have hvm2 : v = m := by omega
        subst hvm2
        have h1 : ((List.range v).filter (fun w => decide ((dist.set v val).getD w UNREACHED ≠ UNREACHED))) =
            ((List.range v).filter (fun w => decide (dist.getD w UNREACHED ≠ UNREACHED))) := by
          apply List.filter_congr
          intro w hw
          have : w ≠ v := by
            have := List.mem_range.mp hw
            omega
          rw [getD_set_ne (Ne.symm this)]
        rw [h1]
        have h2 : ([v].filter (fun w => decide ((dist.set v val).getD w UNREACHED ≠ UNREACHED))).length = 1 := by
          rw [List.filter_singleton]
          have hx : ((dist.set v val).getD v UNREACHED) = val := getD_set_self hvd
          rw [hx]
          simp [hval]
        have h3 : ([v].filter (fun w => decide (dist.getD w UNREACHED ≠ UNREACHED))).length = 0 := by
          rw [List.filter_singleton, hfresh]
          simp
        omega
  exact key n hv



/-! ### Ground-truth distance API -/

lemma gdist_le {adj : List (List Nat)} {s v n : Nat} (h : PathTo adj s v n) :
    gdist adj s v ≤ n := Nat.sInf_le h

lemma reaches_pathTo {adj : List (List Nat)} {s v : Nat} (h : Reaches adj s v) :
    PathTo adj s v (gdist adj s v) := Nat.sInf_mem h

lemma gdist_self (adj : List (List Nat)) (s : Nat) : gdist adj s s = 0 :=
  Nat.le_zero.mp (gdist_le PathTo.refl)

lemma pathTo_zero {adj : List (List Nat)} {s v : Nat} (h : PathTo adj s v 0) :
    v = s := by cases h; rfl

lemma gdist_zero {adj : List (List Nat)} {s v : Nat} (hr : Reaches adj s v)
    (h : gdist adj s v = 0) : v = s := pathTo_zero (h ▸ reaches_pathTo hr)

lemma gdist_edge_le {adj : List (List Nat)} {s u v : Nat} (hu : Reaches adj s u)
    (hedge : v ∈ adj.getD u []) : gdist adj s v ≤ gdist adj s u + 1 :=
  gdist_le (PathTo.step (reaches_pathTo hu) hedge)

lemma gdist_pred {adj : List (List Nat)} {s v : Nat} (hr : Reaches adj s v)
    (h : 0 < gdist adj s v) :
    ∃ u, Reaches adj s u ∧ v ∈ adj.getD u [] ∧ gdist adj s u + 1 = gdist adj s v := by
  obtain ⟨m, hm⟩ : ∃ m, gdist adj s v = m + 1 := ⟨gdist adj s v - 1, by omega⟩
  have hp := reaches_pathTo hr
  rw [hm] at hp
  cases hp with
  | step hu hedge =>
    rename_i u
    refine ⟨u, ⟨_, hu⟩, hedge, ?_⟩
    have h1 : gdist adj s u ≤ m := gdist_le hu
    have h2 : gdist adj s v ≤ gdist adj s u + 1 := gdist_edge_le ⟨_, hu⟩ hedge
    omega

/-! ### Paths as node lists versus `PathTo` -/

lemma pathTo_exists_validPath {adj : List (List Nat)} {s v n : Nat}
    (h : PathTo adj s v n) : ∃ p, ValidPath adj s v p ∧ p.length = n + 1 := by
  induction h with
  | refl => exact ⟨[s], ⟨rfl, rfl, List.chain'_singleton s⟩, rfl⟩
  | @step u v n hp hedge ih =>
    obtain ⟨p, ⟨hh, hl, hc⟩, hlen⟩ := ih
    have hpne : p ≠ [] := by
      intro hnil
      rw [hnil] at hh
      simp at hh
    refine ⟨p ++ [v], ⟨?_, ?_, ?_⟩, ?_⟩
    · rwa [List.head?_append_of_ne_nil _ hpne]
    · exact List.getLast?_concat p
    · rw [List.chain'_append]
      refine ⟨hc, List.chain'_singleton v, ?_⟩
      intro x hx y hy
      simp only [List.head?_cons, Option.mem_def, Option.some_inj] at hy
      rw [hl] at hx
      simp only [Option.mem_def, Option.some_inj] at hx
      subst hx
      subst hy
      exact hedge
    · simp [hlen]

lemma validPath_pathTo {adj : List (List Nat)} {s : Nat} (p : List Nat) :
    ∀ e, ValidPath adj s e p → PathTo adj s e (p.length - 1) := by
  induction p using List.reverseRecOn with
  | nil =>
    intro e h
    obtain ⟨hh, _, _⟩ := h
    simp at hh
  | append_singleton q a ih =>
    intro e h
    obtain ⟨hh, hl, hc⟩ := h
    have ha : a = e := by
      rw [List.getLast?_concat] at hl
      simpa using hl
    subst ha
    rcases List.eq_nil_or_concat q with hq | ⟨q', b, rfl⟩
    · subst hq
      simp only [List.nil_append, List.head?_cons, Option.some_inj] at hh
      subst hh
      exact PathTo.refl
    · simp only [List.concat_eq_append] at ih hh hl hc
      have hqne : q' ++ [b] ≠ [] := by simp
      have hh' : (q' ++ [b]).head? = some s := by
        rwa [List.head?_append_of_ne_nil _ hqne] at hh
      rw [List.chain'_append] at hc
      obtain ⟨hcq, _, hlink⟩ := hc
      have hedge : a ∈ adj.getD b [] := by
        apply hlink b _ a rfl
        rw [List.getLast?_concat]
        rfl
      have hvp : ValidPath adj s b (q' ++ [b]) :=
        ⟨hh', List.getLast?_concat q', hcq⟩
      have := ih b hvp
      have hlen : (q' ++ [b] ++ [a]).length - 1 = ((q' ++ [b]).length - 1) + 1 := by
        simp
      simp only [List.concat_eq_append]
      rw [hlen]
      exact PathTo.step this hedge

lemma validPath_length {adj : List (List Nat)} {s e : Nat} {p : List Nat}
    (h : ValidPath adj s e p) : gdist adj s e + 1 ≤ p.length := by
  have hne : p ≠ [] := by
    intro hnil
    rw [hnil] at h
    simp [ValidPath] at h
  have h1 := gdist_le (validPath_pathTo p e h)
  have h2 : 1 ≤ p.length := List.length_pos.mpr hne
  omega

lemma validPath_reaches {adj : List (List Nat)} {s e : Nat} {p : List Nat}
    (h : ValidPath adj s e p) : Reaches adj s e :=
  ⟨_, validPath_pathTo p e h⟩



/-- Full characterization of one neighbor scan: the queue grows by the list
`app` of newly reached neighbors; distances change exactly on fresh
neighbors (to `dist[u] + 1`); `u` is appended as parent exactly to the
row of each neighbor that is fresh or at depth `dist[u] + 1`. -/
lemma scanRow_spec (u : Nat) (row : List Nat) (n : Nat) :
    ∀ (dist : List Nat) (parents : List (List Nat)) (queue : List Nat),
      dist.getD u UNREACHED ≠ UNREACHED →
      dist.getD u UNREACHED + 1 ≠ UNREACHED →
      (∀ v ∈ row, v < dist.length ∧ v < parents.length ∧ v < n) →
      ∃ app : List Nat,
        (scanRow u row dist parents queue).2.2 = queue ++ app ∧
        app.Nodup ∧
        (∀ w, w ∈ app ↔ w ∈ row ∧ dist.getD w UNREACHED = UNREACHED) ∧
        (scanRow u row dist parents queue).1.length = dist.length ∧
        (scanRow u row dist parents queue).2.1.length = parents.length ∧
        reachedCount n (scanRow u row dist parents queue).1 =
          reachedCount n dist + app.length ∧
        (∀ v, (scanRow u row dist parents queue).1.getD v UNREACHED =
          if v ∈ row ∧ dist.getD v UNREACHED = UNREACHED
          then dist.getD u UNREACHED + 1 else dist.getD v UNREACHED) ∧
        (∀ v w, w ∈ (scanRow u row dist parents queue).2.1.getD v [] ↔
          (w ∈ parents.getD v [] ∨ (w = u ∧ v ∈ row ∧
            (dist.getD v UNREACHED = UNREACHED ∨
             dist.getD v UNREACHED = dist.getD u UNREACHED + 1)))) := by
  induction row with
  | nil =>
    intro dist parents queue _ _ _
    refine ⟨[], by simp [scanRow_nil], List.nodup_nil, by simp, rfl, rfl,
      by simp [scanRow_nil], ?_, ?_⟩
    · intro v
      simp [scanRow_nil]
    · intro v w
      simp [scanRow_nil]
  | cons v0 vs ih =>
    intro dist parents queue hu hu1 hrow
    have hv0d : v0 < dist.length := (hrow v0 (List.mem_cons_self _ _)).1
    have hv0p : v0 < parents.length := (hrow v0 (List.mem_cons_self _ _)).2.1
    have hv0n : v0 < n := (hrow v0 (List.mem_cons_self _ _)).2.2
    by_cases hfresh : dist.getD v0 UNREACHED = UNREACHED
    · -- fresh neighbor: set distance, record parent, enqueue
      have hne : u ≠ v0 := fun he => hu (he ▸ hfresh)
      rw [scanRow_cons_fresh _ _ _ _ _ _ hfresh]
      set dist' := dist.set v0 (dist.getD u UNREACHED + 1) with hdist'
      set parents' := parents.set v0 (parents.getD v0 [] ++ [u]) with hparents'
      have hdu' : dist'.getD u UNREACHED = dist.getD u UNREACHED :=
        getD_set_ne (fun h => hne h.symm)
      have hdv0' : dist'.getD v0 UNREACHED = dist.getD u UNREACHED + 1 :=
        getD_set_self hv0d
      have hd_other : ∀ w, w ≠ v0 → dist'.getD w UNREACHED = dist.getD w UNREACHED :=
        fun w hw => getD_set_ne (fun h => hw h.symm)
      have hp_v0 : parents'.getD v0 [] = parents.getD v0 [] ++ [u] :=
        getD_set_self hv0p
      have hp_other : ∀ w, w ≠ v0 → parents'.getD w [] = parents.getD w [] :=
        fun w hw => getD_set_ne (fun h => hw h.symm)
      obtain ⟨app', e1, e2, e3, e4, e5, e8, e6, e7⟩ :=
        ih dist' parents' (queue ++ [v0]) (hdu' ▸ hu) (by rwa [hdu'])
          (fun v hv => by
            rw [hdist', hparents']
            simp only [List.length_set]
            exact hrow v (List.mem_cons_of_mem _ hv))
      have hcount : reachedCount n dist' = reachedCount n dist + 1 :=
        reachedCount_set_fresh hv0n hv0d hfresh hu1
      have hv0app : v0 ∉ app' := by
        intro hmem
        have := (e3 v0).mp hmem
        rw [hdv0'] at this
        exact hu1 this.2
      refine ⟨v0 :: app', ?_, ?_, ?_, ?_, ?_, ?_, ?_, ?_⟩
      · rw [e1, List.append_assoc]
        rfl
      · exact List.nodup_cons.mpr ⟨hv0app, e2⟩
      · intro w
        by_cases hw : w = v0
        · subst hw
          exact ⟨fun _ => ⟨List.mem_cons_self _ _, hfresh⟩,
            fun _ => List.mem_cons_self _ _⟩
        · rw [List.mem_cons, e3 w, hd_other w hw, List.mem_cons]
          constructor
          · rintro (h | ⟨hm, hd⟩)
            · exact absurd h hw
            · exact ⟨Or.inr hm, hd⟩
          · rintro ⟨h | hm, hd⟩
            · exact absurd h hw
            · exact Or.inr ⟨hm, hd⟩
      · rw [e4, hdist', List.length_set]
      · rw [e5, hparents', List.length_set]
      · rw [e8, hcount]
        simp [Nat.add_assoc, Nat.add_comm 1 app'.length]
      · intro v
        rw [e6 v]
        by_cases hv : v = v0
        · subst hv
          rw [hdv0', hdu']
          have hc1 : ¬(v ∈ vs ∧ dist.getD u UNREACHED + 1 = UNREACHED) :=
            fun hc => hu1 hc.2
          rw [if_neg hc1, if_pos ⟨List.mem_cons_self _ _, hfresh⟩]
        · rw [hd_other v hv, hdu']
          have : (v ∈ vs ∧ dist.getD v UNREACHED = UNREACHED) ↔
              (v ∈ v0 :: vs ∧ dist.getD v UNREACHED = UNREACHED) := by
            simp [hv]
          rw [if_congr this rfl rfl]
      · intro v w
        rw [e7 v w]
        by_cases hv : v = v0
        · subst hv
          rw [hp_v0, hdv0', hdu']
          constructor
          · rintro (hm | ⟨rfl, _, _⟩)
            · rcases List.mem_append.mp hm with hm | hm
              · exact Or.inl hm
              · simp only [List.mem_singleton] at hm
                exact Or.inr ⟨hm, List.mem_cons_self _ _, Or.inl hfresh⟩
            · exact Or.inr ⟨rfl, List.mem_cons_self _ _, Or.inl hfresh⟩
          · rintro (hm | ⟨rfl, _, _⟩)
            · exact Or.inl (List.mem_append.mpr (Or.inl hm))
            · exact Or.inl (List.mem_append.mpr (Or.inr (List.mem_singleton.mpr rfl)))
        · rw [hp_other v hv, hd_other v hv, hdu']
          constructor
          · rintro (hm | ⟨rfl, hvs, hd⟩)
            · exact Or.inl hm
            · exact Or.inr ⟨rfl, List.mem_cons_of_mem _ hvs, hd⟩
          · rintro (hm | ⟨rfl, hvs, hd⟩)
            · exact Or.inl hm
            · rcases List.mem_cons.mp hvs with hv0 | hvs'
              · exact absurd hv0 hv
              · exact Or.inr ⟨rfl, hvs', hd⟩
    · by_cases hlayer : dist.getD v0 UNREACHED = dist.getD u UNREACHED + 1
      · -- neighbor in the next layer: record an additional parent
        rw [scanRow_cons_layer _ _ _ _ _ _ hfresh hlayer]
        set parents' := parents.set v0 (parents.getD v0 [] ++ [u]) with hparents'
        have hp_v0 : parents'.getD v0 [] = parents.getD v0 [] ++ [u] :=
          getD_set_self hv0p
        have hp_other : ∀ w, w ≠ v0 → parents'.getD w [] = parents.getD w [] :=
          fun w hw => getD_set_ne (fun h => hw h.symm)
        obtain ⟨app', e1, e2, e3, e4, e5, e8, e6, e7⟩ :=
          ih dist parents' queue hu hu1
            (fun v hv => by
              rw [hparents']
              simp only [List.length_set]
              exact hrow v (List.mem_cons_of_mem _ hv))
        refine ⟨app', e1, e2, ?_, e4, ?_, e8, ?_, ?_⟩
        · intro w
          rw [e3 w]
          by_cases hw : w = v0
          · subst hw
            exact ⟨fun hc => absurd hc.2 hfresh, fun hc => absurd hc.2 hfresh⟩
          · rw [List.mem_cons]
            constructor
            · rintro ⟨hm, hd⟩
              exact ⟨Or.inr hm, hd⟩
            · rintro ⟨h | hm, hd⟩
              · exact absurd h hw
              · exact ⟨hm, hd⟩
        · rw [e5, hparents', List.length_set]
        · intro v
          rw [e6 v]
          have : (v ∈ vs ∧ dist.getD v UNREACHED = UNREACHED) ↔
              (v ∈ v0 :: vs ∧ dist.getD v UNREACHED = UNREACHED) := by
            constructor
            · rintro ⟨hvs, hd⟩
              exact ⟨List.mem_cons_of_mem _ hvs, hd⟩
            · rintro ⟨hvs, hd⟩
              rcases List.mem_cons.mp hvs with rfl | hvs'
              · exact absurd hd hfresh
              · exact ⟨hvs', hd⟩
          rw [if_congr this rfl rfl]
        · intro v w
          rw [e7 v w]
          by_cases hv : v = v0
          · subst hv
            rw [hp_v0]
            constructor
            · rintro (hm | ⟨rfl, _, _⟩)
              · rcases List.mem_append.mp hm with hm | hm
                · exact Or.inl hm
                · simp only [List.mem_singleton] at hm
                  exact Or.inr ⟨hm, List.mem_cons_self _ _, Or.inr hlayer⟩
              · exact Or.inr ⟨rfl, List.mem_cons_self _ _, Or.inr hlayer⟩
            · rintro (hm | ⟨rfl, _, _⟩)
              · exact Or.inl (List.mem_append.mpr (Or.inl hm))
              · exact Or.inl (List.mem_append.mpr (Or.inr (List.mem_singleton.mpr rfl)))
          · rw [hp_other v hv]
            constructor
            · rintro (hm | ⟨rfl, hvs, hd⟩)
              · exact Or.inl hm
              · exact Or.inr ⟨rfl, List.mem_cons_of_mem _ hvs, hd⟩
            · rintro (hm | ⟨rfl, hvs, hd⟩)
              · exact Or.inl hm
              · rcases List.mem_cons.mp hvs with hv0 | hvs'
                · exact absurd hv0 hv
                · exact Or.inr ⟨rfl, hvs', hd⟩
      · -- neighbor already reached at a different depth: ignored
        rw [scanRow_cons_skip _ _ _ _ _ _ hfresh hlayer]
        obtain ⟨app', e1, e2, e3, e4, e5, e8, e6, e7⟩ :=
          ih dist parents queue hu hu1
            (fun v hv => hrow v (List.mem_cons_of_mem _ hv))
        refine ⟨app', e1, e2, ?_, e4, e5, e8, ?_, ?_⟩
        · intro w
          rw [e3 w]
          by_cases hw : w = v0
          · subst hw
            exact ⟨fun hc => absurd hc.2 hfresh, fun hc => absurd hc.2 hfresh⟩
          · rw [List.mem_cons]
            constructor
            · rintro ⟨hm, hd⟩
              exact ⟨Or.inr hm, hd⟩
            · rintro ⟨h | hm, hd⟩
              · exact absurd h hw
              · exact ⟨hm, hd⟩
        · intro v
          rw [e6 v]
          have : (v ∈ vs ∧ dist.getD v UNREACHED = UNREACHED) ↔
              (v ∈ v0 :: vs ∧ dist.getD v UNREACHED = UNREACHED) := by
            constructor
            · rintro ⟨hvs, hd⟩
              exact ⟨List.mem_cons_of_mem _ hvs, hd⟩
            · rintro ⟨hvs, hd⟩
              rcases List.mem_cons.mp hvs with rfl | hvs'
              · exact absurd hd hfresh
              · exact ⟨hvs', hd⟩
          rw [if_congr this rfl rfl]
        · intro v w
          rw [e7 v w]
          constructor
          · rintro (hm | ⟨rfl, hvs, hd⟩)
            · exact Or.inl hm
            · exact Or.inr ⟨rfl, List.mem_cons_of_mem _ hvs, hd⟩
          · rintro (hm | ⟨rfl, hvs, hd⟩)
            · exact Or.inl hm
            · rcases List.mem_cons.mp hvs with rfl | hvs'
              · rcases hd with hd | hd
                · exact absurd hd hfresh
                · exact absurd hd hlayer
              · exact Or.inr ⟨rfl, hvs', hd⟩



lemma zero_ne_unreached : (0 : Nat) ≠ UNREACHED := by norm_num [UNREACHED]

/-- One dequeue-and-scan step of the BFS preserves the invariant (with the
layer counter updated as the loop does) and strictly decreases the fuel
measure `(#unreached) + |queue|`. -/
lemma bfsInv_step {adj : List (List Nat)} {s e : Nat}
    (hwf : ∀ row ∈ adj, ∀ v ∈ row, v < adj.length)
    (hV : adj.length < UNREACHED)
    {dist : List Nat} {parents : List (List Nat)} {u : Nat} {rest : List Nat}
    {cur : Nat}
    (inv : BfsInv adj s e dist parents (u :: rest) cur) :
    BfsInv adj s e (scanRow u (adj.getD u []) dist parents rest).1
      (scanRow u (adj.getD u []) dist parents rest).2.1
      (scanRow u (adj.getD u []) dist parents rest).2.2
      (if cur < dist.getD u UNREACHED then dist.getD u UNREACHED else cur) ∧
    adj.length - reachedCount adj.length (scanRow u (adj.getD u []) dist parents rest).1 +
      (scanRow u (adj.getD u []) dist parents rest).2.2.length + 1 ≤
      adj.length - reachedCount adj.length dist + (u :: rest).length := by
  have hu_mem := inv.qMem u (List.mem_cons_self _ _)
  have hcnt_u := inv.count u hu_mem.2
  have hcle := reachedCount_le adj.length dist
  have hdu1 : dist.getD u UNREACHED + 1 ≠ UNREACHED := by omega
  have hrow_lt : ∀ v ∈ adj.getD u [], v < adj.length := by
    intro v hv
    rcases getD_mem_or adj u [] with hrowmem | hrowe
    · exact hwf _ hrowmem v hv
    · rw [hrowe] at hv
      simp at hv
  obtain ⟨app, e1, e2, e3, e4, e5, e8, e6, e7⟩ :=
    scanRow_spec u (adj.getD u []) adj.length dist parents rest hu_mem.2 hdu1
      (fun v hv => ⟨inv.distLen ▸ hrow_lt v hv, inv.parLen ▸ hrow_lt v hv,
        hrow_lt v hv⟩)
  have happ_lt : ∀ w ∈ app, w < adj.length :=
    fun w hw => hrow_lt w ((e3 w).mp hw).1
  have happ_fresh : ∀ w ∈ app, dist.getD w UNREACHED = UNREACHED :=
    fun w hw => ((e3 w).mp hw).2
  have hne_u_app : u ∉ app := fun h => hu_mem.2 (happ_fresh u h)
  have hd'_reached_eq : ∀ v, dist.getD v UNREACHED ≠ UNREACHED →
      (scanRow u (adj.getD u []) dist parents rest).1.getD v UNREACHED =
        dist.getD v UNREACHED := by
    intro v hv
    rw [e6 v, if_neg]
    exact fun hc => hv hc.2
  have hd'_app : ∀ v ∈ app,
      (scanRow u (adj.getD u []) dist parents rest).1.getD v UNREACHED =
        dist.getD u UNREACHED + 1 := by
    intro v hv
    rw [e6 v, if_pos ((e3 v).mp hv)]
  have hd'_u : (scanRow u (adj.getD u []) dist parents rest).1.getD u UNREACHED =
      dist.getD u UNREACHED := hd'_reached_eq u hu_mem.2
  have hd'_reached_iff : ∀ v,
      ((scanRow u (adj.getD u []) dist parents rest).1.getD v UNREACHED ≠ UNREACHED ↔
        (dist.getD v UNREACHED ≠ UNREACHED ∨ v ∈ app)) := by
    intro v
    by_cases hc : v ∈ adj.getD u [] ∧ dist.getD v UNREACHED = UNREACHED
    · rw [e6 v, if_pos hc]
      constructor
      · intro _
        exact Or.inr ((e3 v).mpr hc)
      · intro _
        exact hdu1
    · rw [e6 v, if_neg hc]
      constructor
      · exact Or.inl
      · rintro (h | h)
        · exact h
        · exact absurd ((e3 v).mp h) hc
  have hrest_nodup : rest.Nodup := (List.nodup_cons.mp inv.qNodup).2
  have hu_rest : u ∉ rest := (List.nodup_cons.mp inv.qNodup).1
  obtain ⟨k, q1, q2, hqsplit, hcurk, hq1, hq2, hbnd⟩ := inv.layers
  have hduk : k ≤ dist.getD u UNREACHED := by
    cases q1 with
    | nil =>
      simp only [List.nil_append] at hqsplit
      have := hq2 u (hqsplit ▸ List.mem_cons_self _ _)
      omega
    | cons a q1' =>
      rw [List.cons_append] at hqsplit
      injection hqsplit with h1 _
      have := hq1 a (List.mem_cons_self _ _)
      rw [← h1] at this
      omega
  have hcur'_ge_u : dist.getD u UNREACHED ≤
      (if cur < dist.getD u UNREACHED then dist.getD u UNREACHED else cur) := by
    split <;> omega
  have hcur'_ge : cur ≤
      (if cur < dist.getD u UNREACHED then dist.getD u UNREACHED else cur) := by
    split <;> omega
  have hcur'_cases : (if cur < dist.getD u UNREACHED then dist.getD u UNREACHED else cur) =
      dist.getD u UNREACHED ∨
      (if cur < dist.getD u UNREACHED then dist.getD u UNREACHED else cur) = cur := by
    split
    · exact Or.inl rfl
    · exact Or.inr rfl
  constructor
  · refine ⟨?_, ?_, ?_, ?_, ?_, ?_, ?_, ?_, ?_, ?_, ?_, ?_⟩
    · rw [e4]
      exact inv.distLen
    · rw [e5]
      exact inv.parLen
    · have hs : dist.getD s UNREACHED ≠ UNREACHED := by
        rw [inv.startZero]
        exact zero_ne_unreached
      rw [hd'_reached_eq s hs]
      exact inv.startZero
    · intro v hv
      rw [e1] at hv
      rcases List.mem_append.mp hv with hv | hv
      · have := inv.qMem v (List.mem_cons_of_mem _ hv)
        refine ⟨this.1, ?_⟩
        rw [hd'_reached_eq v this.2]
        exact this.2
      · refine ⟨happ_lt v hv, ?_⟩
        rw [hd'_app v hv]
        exact hdu1
    · rw [e1]
      refine List.nodup_append.mpr ⟨hrest_nodup, e2, ?_⟩
      intro x hx1 hx2
      exact (inv.qMem x (List.mem_cons_of_mem _ hx1)).2 (happ_fresh x hx2)
    · intro v hv
      rcases (hd'_reached_iff v).mp hv with hold | happ
      · rw [hd'_reached_eq v hold]
        exact inv.sound v hold
      · rw [hd'_app v happ]
        exact PathTo.step (inv.sound u hu_mem.2) ((e3 v).mp happ).1
    · intro v hv
      rw [e8]
      rcases (hd'_reached_iff v).mp hv with hold | happ
      · rw [hd'_reached_eq v hold]
        have := inv.count v hold
        omega
      · rw [hd'_app v happ]
        have hlen : 1 ≤ app.length := List.length_pos.mpr (List.ne_nil_of_mem happ)
        omega
    · intro u' hu'V hu're hu'q v hv
      by_cases hu'u : u' = u
      · subst hu'u
        rw [hd'_u]
        by_cases hvf : dist.getD v UNREACHED = UNREACHED
        · have hvapp : v ∈ app := (e3 v).mpr ⟨hv, hvf⟩
          rw [hd'_app v hvapp]
          exact ⟨hdu1, le_refl _⟩
        · rw [hd'_reached_eq v hvf]
          have h1 := hbnd v hvf
          exact ⟨hvf, by omega⟩
      · rw [e1] at hu'q
        have hu'rest : u' ∉ rest := fun h => hu'q (List.mem_append.mpr (Or.inl h))
        have hu'app : u' ∉ app := fun h => hu'q (List.mem_append.mpr (Or.inr h))
        have hu're_old : dist.getD u' UNREACHED ≠ UNREACHED := by
          rcases (hd'_reached_iff u').mp hu're with h | h
          · exact h
          · exact absurd h hu'app
        have hu'oldq : u' ∉ u :: rest := by
          intro h
          rcases List.mem_cons.mp h with h | h
          · exact hu'u h
          · exact hu'rest h
        have hold := inv.scanned u' hu'V hu're_old hu'oldq v hv
        rw [hd'_reached_eq u' hu're_old, hd'_reached_eq v hold.1]
        exact hold
    · intro v hv hq'
      rw [e1] at hq'
      have hvrest : v ∉ rest := fun h => hq' (List.mem_append.mpr (Or.inl h))
      have hvapp : v ∉ app := fun h => hq' (List.mem_append.mpr (Or.inr h))
      have hvold : dist.getD v UNREACHED ≠ UNREACHED := by
        rcases (hd'_reached_iff v).mp hv with h | h
        · exact h
        · exact absurd h hvapp
      rw [hd'_reached_eq v hvold]
      by_cases hvu : v = u
      · subst hvu
        exact hcur'_ge_u
      · have : v ∉ u :: rest := by
          intro h
          rcases List.mem_cons.mp h with h | h
          · exact hvu h
          · exact hvrest h
        have := inv.procCur v hvold this
        omega
    · cases q1 with
      | nil =>
        simp only [List.nil_append] at hqsplit
        have hq2u : dist.getD u UNREACHED = k + 1 :=
          hq2 u (hqsplit ▸ List.mem_cons_self _ _)
        refine ⟨k + 1, rest, app, e1,
          by rcases hcur'_cases with h | h <;> omega, ?_, ?_, ?_⟩
        · intro v hv
          have hvq2 : v ∈ q2 := by
            rw [← hqsplit]
            exact List.mem_cons_of_mem _ hv
          have hvd := hq2 v hvq2
          have hvre : dist.getD v UNREACHED ≠ UNREACHED := by
            rw [hvd]
            rw [hq2u] at hu_mem
            exact hu_mem.2
          rw [hd'_reached_eq v hvre]
          exact hvd
        · intro v hv
          rw [hd'_app v hv, hq2u]
        · intro v hv
          rcases (hd'_reached_iff v).mp hv with hold | happ
          · rw [hd'_reached_eq v hold]
            have := hbnd v hold
            omega
          · rw [hd'_app v happ, hq2u]
      | cons a q1' =>
        rw [List.cons_append] at hqsplit
        injection hqsplit with h1 h2
        subst h1
        have hduk2 : dist.getD u UNREACHED = k := hq1 u (List.mem_cons_self _ _)
        refine ⟨k, q1', q2 ++ app, ?_,
          by rcases hcur'_cases with h | h <;> omega, ?_, ?_, ?_⟩
        · rw [e1, h2, List.append_assoc]
        · intro v hv
          have hvd := hq1 v (List.mem_cons_of_mem _ hv)
          have hvre : dist.getD v UNREACHED ≠ UNREACHED := by
            rw [hvd, ← hduk2]
            exact hu_mem.2
          rw [hd'_reached_eq v hvre]
          exact hvd
        · intro v hv
          rcases List.mem_append.mp hv with hv | hv
          · have hvd := hq2 v hv
            have hvre : dist.getD v UNREACHED ≠ UNREACHED := by
              have hvmem : v ∈ u :: rest := by
                rw [h2]
                exact List.mem_cons_of_mem _ (List.mem_append.mpr (Or.inr hv))
              exact (inv.qMem v hvmem).2
            rw [hd'_reached_eq v hvre]
            exact hvd
          · rw [hd'_app v hv, hduk2]
        · intro v hv
          rcases (hd'_reached_iff v).mp hv with hold | happ
          · rw [hd'_reached_eq v hold]
            exact hbnd v hold
          · rw [hd'_app v happ, hduk2]
    · intro he'
      rcases (hd'_reached_iff e).mp he' with hold | happ
      · rw [hd'_reached_eq e hold]
        have := inv.eClose hold
        omega
      · rw [hd'_app e happ]
        omega
    · intro v w
      rw [e7 v w]
      constructor
      · rintro (hold | ⟨rfl, hvrow, hvd⟩)
        · obtain ⟨hwV, hwre, hwq, hedge, hdeq⟩ := (inv.parChar v w).mp hold
          have hwcnt := inv.count w hwre
          have hvre : dist.getD v UNREACHED ≠ UNREACHED := by omega
          refine ⟨hwV, ?_, ?_, hedge, ?_⟩
          · rw [hd'_reached_eq w hwre]
            exact hwre
          · rw [e1]
            intro hmem
            rcases List.mem_append.mp hmem with h | h
            · exact hwq (List.mem_cons_of_mem _ h)
            · exact hwre (happ_fresh w h)
          · rw [hd'_reached_eq v hvre, hd'_reached_eq w hwre]
            exact hdeq
        · refine ⟨hu_mem.1, ?_, ?_, hvrow, ?_⟩
          · rw [hd'_u]
            exact hu_mem.2
          · rw [e1]
            intro hmem
            rcases List.mem_append.mp hmem with h | h
            · exact hu_rest h
            · exact hne_u_app h
          · rw [hd'_u]
            rcases hvd with hvd | hvd
            · exact hd'_app v ((e3 v).mpr ⟨hvrow, hvd⟩)
            · rw [hd'_reached_eq v (by rw [hvd]; exact hdu1)]
              exact hvd
      · rintro ⟨hwV, hwre', hwq', hedge, hdeq'⟩
        by_cases hwu : w = u
        · subst hwu
          refine Or.inr ⟨rfl, hedge, ?_⟩
          rw [hd'_u] at hdeq'
          by_cases hvf : dist.getD v UNREACHED = UNREACHED
          · exact Or.inl hvf
          · rw [hd'_reached_eq v hvf] at hdeq'
            exact Or.inr hdeq'
        · left
          rw [e1] at hwq'
          have hwrest : w ∉ rest := fun h => hwq' (List.mem_append.mpr (Or.inl h))
          have hwapp : w ∉ app := fun h => hwq' (List.mem_append.mpr (Or.inr h))
          have hwre : dist.getD w UNREACHED ≠ UNREACHED := by
            rcases (hd'_reached_iff w).mp hwre' with h | h
            · exact h
            · exact absurd h hwapp
          have hwoldq : w ∉ u :: rest := by
            intro h
            rcases List.mem_cons.mp h with h | h
            · exact hwu h
            · exact hwrest h
          have hvre : dist.getD v UNREACHED ≠ UNREACHED :=
            (inv.scanned w hwV hwre hwoldq v hedge).1
          apply (inv.parChar v w).mpr
          refine ⟨hwV, hwre, hwoldq, hedge, ?_⟩
          rw [hd'_reached_eq v hvre, hd'_reached_eq w hwre] at hdeq'
          exact hdeq'
  · have hlq : (scanRow u (adj.getD u []) dist parents rest).2.2.length =
        rest.length + app.length := by
      rw [e1, List.length_append]
    have hcle' := e8 ▸ reachedCount_le adj.length
      (scanRow u (adj.getD u []) dist parents rest).1
    rw [hlq, e8, List.length_cons]
    omega



lemma getD_replicate' {α : Type} {n i : Nat} {a d : α} :
    (List.replicate n a).getD i d = if i < n then a else d := by
  rw [List.getD_eq_getElem?_getD, List.getElem?_replicate]
  split <;> rfl

lemma reached_lt {dist : List Nat} {v : Nat}
    (h : dist.getD v UNREACHED ≠ UNREACHED) : v < dist.length := by
  by_contra hge
  exact h (List.getD_eq_default _ _ (by omega))

/-- Nodes with a path shorter than every queued node's distance have been
reached and settled at (at most) that length. -/
lemma bfsInv_min {adj : List (List Nat)} {s e : Nat} {dist : List Nat}
    {parents : List (List Nat)} {queue : List Nat} {cur : Nat}
    (inv : BfsInv adj s e dist parents queue cur) (L : Nat)
    (hqL : ∀ v ∈ queue, L ≤ dist.getD v UNREACHED) :
    ∀ m, m < L → ∀ v, PathTo adj s v m →
      dist.getD v UNREACHED ≠ UNREACHED ∧ dist.getD v UNREACHED ≤ m := by
  intro m
  induction m with
  | zero =>
    intro _ v hp
    have hv := pathTo_zero hp
    subst hv
    constructor
    · rw [inv.startZero]
      exact zero_ne_unreached
    · rw [inv.startZero]
  | succ m ih =>
    intro hm v hp
    cases hp with
    | step hpu hedge =>
      rename_i u'
      obtain ⟨hure, hule⟩ := ih (by omega) u' hpu
      have hu'q : u' ∉ queue := by
        intro hq
        have := hqL u' hq
        omega
      have hu'V : u' < adj.length := inv.distLen ▸ reached_lt hure
      have := inv.scanned u' hu'V hure hu'q v hedge
      exact ⟨this.1, by omega⟩

/-- Termination with an empty queue: the whole reachable component is
settled, so the postcondition holds at `dist[end_index]`. -/
lemma bfsPost_empty {adj : List (List Nat)} {s e : Nat} {dist : List Nat}
    {parents : List (List Nat)} {cur : Nat}
    (hV : adj.length < UNREACHED)
    (inv : BfsInv adj s e dist parents [] cur) :
    BfsPost adj s e parents (dist.getD e UNREACHED) := by
  have minAll : ∀ m v, PathTo adj s v m →
      dist.getD v UNREACHED ≠ UNREACHED ∧ dist.getD v UNREACHED ≤ m := by
    intro m v hp
    exact bfsInv_min inv (m + 1) (by simp) m (by omega) v hp
  have reachedIff : ∀ v, dist.getD v UNREACHED ≠ UNREACHED ↔ Reaches adj s v := by
    intro v
    constructor
    · intro h
      exact ⟨_, inv.sound v h⟩
    · rintro ⟨m, hp⟩
      exact (minAll m v hp).1
  have distEq : ∀ v, dist.getD v UNREACHED ≠ UNREACHED →
      dist.getD v UNREACHED = gdist adj s v := by
    intro v hv
    have h1 := gdist_le (inv.sound v hv)
    have h2 := (minAll _ v (reaches_pathTo ((reachedIff v).mp hv))).2
    omega
  refine ⟨reachedIff e, ?_, ?_⟩
  · intro he
    exact ⟨inv.sound e he, fun m hp => (minAll m e hp).2⟩
  · intro v w hvr hvle
    constructor
    · intro hmem
      obtain ⟨hwV, hwre, _, hedge, hdeq⟩ := (inv.parChar v w).mp hmem
      have hwc := inv.count w hwre
      have hwcle := reachedCount_le adj.length dist
      have hvre : dist.getD v UNREACHED ≠ UNREACHED := by omega
      refine ⟨hedge, (reachedIff w).mp hwre, ?_⟩
      rw [← distEq w hwre, ← distEq v hvre]
      omega
    · rintro ⟨hedge, hwr, hdeq⟩
      have hwre := (reachedIff w).mpr hwr
      have hvre := (reachedIff v).mpr hvr
      apply (inv.parChar v w).mpr
      refine ⟨inv.distLen ▸ reached_lt hwre, hwre, by simp, hedge, ?_⟩
      rw [distEq w hwre, distEq v hvre]
      omega

/-- Termination by the layer break: everything at distance up to the
current layer is settled and the end node lies within it, so the
postcondition holds at `dist[end_index]`. -/
lemma bfsPost_break {adj : List (List Nat)} {s e : Nat} {dist : List Nat}
    {parents : List (List Nat)} {u0 : Nat} {rest : List Nat} {cur : Nat}
    (hV : adj.length < UNREACHED)
    (inv : BfsInv adj s e dist parents (u0 :: rest) cur)
    (hbr : cur < dist.getD u0 UNREACHED ∧
      dist.getD e UNREACHED ≠ UNREACHED) :
    BfsPost adj s e parents (dist.getD e UNREACHED) := by
  obtain ⟨k, q1, q2, hqsplit, hcurk, hq1, hq2, hbnd⟩ := inv.layers
  have hqvals : ∀ v ∈ u0 :: rest, dist.getD v UNREACHED = k ∨
      dist.getD v UNREACHED = k + 1 := by
    intro v hv
    rw [hqsplit] at hv
    rcases List.mem_append.mp hv with hv | hv
    · exact Or.inl (hq1 v hv)
    · exact Or.inr (hq2 v hv)
  have hL0k : k ≤ dist.getD u0 UNREACHED := by
    cases q1 with
    | nil =>
      simp only [List.nil_append] at hqsplit
      have := hq2 u0 (hqsplit ▸ List.mem_cons_self _ _)
      omega
    | cons a q1' =>
      rw [List.cons_append] at hqsplit
      injection hqsplit with h1 _
      have := hq1 a (List.mem_cons_self _ _)
      rw [← h1] at this
      omega
  have hqmin : ∀ v ∈ u0 :: rest, dist.getD u0 UNREACHED ≤
      dist.getD v UNREACHED := by
    intro v hv
    cases q1 with
    | nil =>
      simp only [List.nil_append] at hqsplit
      have h1 := hq2 u0 (hqsplit ▸ List.mem_cons_self _ _)
      have h2 := hq2 v (hqsplit ▸ hv)
      omega
    | cons a q1' =>
      rw [List.cons_append] at hqsplit
      injection hqsplit with h1 _
      have hu0 := hq1 a (List.mem_cons_self _ _)
      rw [← h1] at hu0
      rcases hqvals v hv with h | h <;> omega
  have hMin := bfsInv_min inv (dist.getD u0 UNREACHED) hqmin
  have hL0pos : 0 < dist.getD u0 UNREACHED := by omega
  have distEq : ∀ v, dist.getD v UNREACHED ≠ UNREACHED →
      dist.getD v UNREACHED = gdist adj s v := by
    intro v hv
    have hgle := gdist_le (inv.sound v hv)
    rcases Nat.lt_or_ge (gdist adj s v) (dist.getD u0 UNREACHED) with hlt | hge
    · have := (hMin _ hlt v (reaches_pathTo ⟨_, inv.sound v hv⟩)).2
      omega
    · -- gdist v ≥ L0; dist v ≤ k + 1 and L0 ≥ k force near-equality
      have hvbnd := hbnd v hv
      rcases Nat.lt_or_ge (gdist adj s v) (dist.getD v UNREACHED) with hlt2 | hge2
      · exfalso
        have hgpos : 0 < gdist adj s v := by omega
        obtain ⟨w, hwr, hedge, hweq⟩ := gdist_pred ⟨_, inv.sound v hv⟩ hgpos
        have hwlt : gdist adj s w < dist.getD u0 UNREACHED := by omega
        obtain ⟨hwre, hwle⟩ := hMin _ hwlt w (reaches_pathTo hwr)
        have hwq : w ∉ u0 :: rest := by
          intro hq
          have := hqmin w hq
          omega
        have := inv.scanned w (inv.distLen ▸ reached_lt hwre) hwre hwq v hedge
        omega
      · omega
  have reachedUpto : ∀ v, Reaches adj s v →
      gdist adj s v ≤ dist.getD u0 UNREACHED →
      dist.getD v UNREACHED ≠ UNREACHED := by
    intro v hvr hle
    rcases Nat.lt_or_ge (gdist adj s v) (dist.getD u0 UNREACHED) with hlt | hge
    · exact (hMin _ hlt v (reaches_pathTo hvr)).1
    · have hgpos : 0 < gdist adj s v := by omega
      obtain ⟨w, hwr, hedge, hweq⟩ := gdist_pred hvr hgpos
      have hwlt : gdist adj s w < dist.getD u0 UNREACHED := by omega
      obtain ⟨hwre, hwle⟩ := hMin _ hwlt w (reaches_pathTo hwr)
      have hwq : w ∉ u0 :: rest := by
        intro hq
        have := hqmin w hq
        omega
      exact (inv.scanned w (inv.distLen ▸ reached_lt hwre) hwre hwq v hedge).1
  have heL0 : dist.getD e UNREACHED ≤ dist.getD u0 UNREACHED := by
    have := inv.eClose hbr.2
    omega
  refine ⟨⟨fun _ => ⟨_, inv.sound e hbr.2⟩, fun _ => hbr.2⟩, ?_, ?_⟩
  · intro he
    refine ⟨inv.sound e hbr.2, fun m hp => ?_⟩
    have h1 := gdist_le hp
    have h2 := distEq e hbr.2
    omega
  · intro v w hvr hvle
    have hde := distEq e hbr.2
    have hvle' : gdist adj s v ≤ dist.getD u0 UNREACHED := by omega
    constructor
    · intro hmem
      obtain ⟨hwV, hwre, hwq, hedge, hdeq⟩ := (inv.parChar v w).mp hmem
      have hwc := inv.count w hwre
      have hwcle := reachedCount_le adj.length dist
      have hvre : dist.getD v UNREACHED ≠ UNREACHED := by omega
      refine ⟨hedge, ⟨_, inv.sound w hwre⟩, ?_⟩
      rw [← distEq w hwre, ← distEq v hvre]
      omega
    · rintro ⟨hedge, hwr, hdeq⟩
      have hwlt : gdist adj s w < dist.getD u0 UNREACHED := by omega
      obtain ⟨hwre, hwle⟩ := hMin _ hwlt w (reaches_pathTo hwr)
      have hwq : w ∉ u0 :: rest := by
        intro hq
        have := hqmin w hq
        have := distEq w hwre
        omega
      have hvre := reachedUpto v hvr hvle'
      apply (inv.parChar v w).mpr
      refine ⟨inv.distLen ▸ reached_lt hwre, hwre, hwq, hedge, ?_⟩
      rw [distEq w hwre, distEq v hvre]
      omega



/-- Running the BFS loop from any invariant state with sufficient fuel
terminates with the postcondition. -/
lemma bfsLoop_run {adj : List (List Nat)} {s e : Nat}
    (hwf : ∀ row ∈ adj, ∀ v ∈ row, v < adj.length)
    (hV : adj.length < UNREACHED) :
    ∀ (fuel : Nat) (dist : List Nat) (parents : List (List Nat))
      (queue : List Nat) (cur : Nat),
      BfsInv adj s e dist parents queue cur →
      adj.length - reachedCount adj.length dist + queue.length ≤ fuel →
      ∃ parentsF dres,
        bfsLoop adj e fuel dist parents queue cur = some (parentsF, dres) ∧
        BfsPost adj s e parentsF dres := by
  intro fuel
  induction fuel with
  | zero =>
    intro dist parents queue cur inv hfl
    have hq : queue = [] := by
      cases queue with
      | nil => rfl
      | cons a l => simp at hfl
    subst hq
    rw [bfsLoop_nil]
    exact ⟨parents, _, rfl, bfsPost_empty hV inv⟩
  | succ fuel ih =>
    intro dist parents queue cur inv hfl
    cases queue with
    | nil =>
      rw [bfsLoop_nil]
      exact ⟨parents, _, rfl, bfsPost_empty hV inv⟩
    | cons u rest =>
      by_cases hbr : cur < dist.getD u UNREACHED ∧
          dist.getD e UNREACHED ≠ UNREACHED
      · rw [bfsLoop_cons_break _ _ _ _ _ _ _ _ hbr]
        exact ⟨parents, _, rfl, bfsPost_break hV inv hbr⟩
      · rw [bfsLoop_cons_go _ _ _ _ _ _ _ _ hbr]
        obtain ⟨inv', hdec⟩ := bfsInv_step hwf hV inv
        apply ih _ _ _ _ inv'
        rw [List.length_cons] at hfl hdec
        have hVc := reachedCount_le adj.length dist
        have hVc' := reachedCount_le adj.length
          (scanRow u (adj.getD u []) dist parents rest).1
        omega

/-- The invariant holds at the initial BFS state. -/
lemma bfsInv_init {adj : List (List Nat)} {s e : Nat}
    (hs : s < adj.length) :
    BfsInv adj s e ((List.replicate adj.length UNREACHED).set s 0)
      (List.replicate adj.length []) [s] 0 := by
  have hlen : ((List.replicate adj.length UNREACHED).set s 0).length = adj.length := by
    simp
  have hd0 : ∀ v, ((List.replicate adj.length UNREACHED).set s 0).getD v UNREACHED =
      if v = s then 0 else UNREACHED := by
    intro v
    by_cases hv : v = s
    · subst hv
      rw [if_pos rfl]
      exact getD_set_self (by simpa using hs)
    · rw [if_neg hv, getD_set_ne (fun h => hv h.symm), getD_replicate']
      split <;> rfl
  have hds : ((List.replicate adj.length UNREACHED).set s 0).getD s UNREACHED = 0 := by
    rw [hd0 s, if_pos rfl]
  have hreach_s : ∀ v, ((List.replicate adj.length UNREACHED).set s 0).getD v
      UNREACHED ≠ UNREACHED → v = s := by
    intro v hv
    rw [hd0 v] at hv
    by_contra hne
    rw [if_neg hne] at hv
    exact hv rfl
  have hcount1 : 1 ≤ reachedCount adj.length
      ((List.replicate adj.length UNREACHED).set s 0) := by
    have hmem : s ∈ (List.range adj.length).filter
        (fun v => decide (((List.replicate adj.length UNREACHED).set s 0).getD v
          UNREACHED ≠ UNREACHED)) := by
      rw [List.mem_filter]
      refine ⟨List.mem_range.mpr hs, ?_⟩
      rw [hds]
      simp [zero_ne_unreached]
    have := List.length_pos.mpr (List.ne_nil_of_mem hmem)
    exact this
  refine ⟨hlen, by simp, hds, ?_, List.nodup_singleton s, ?_, ?_, ?_, ?_, ?_, ?_, ?_⟩
  · intro v hv
    rw [List.mem_singleton] at hv
    subst hv
    refine ⟨hs, ?_⟩
    rw [hds]
    exact zero_ne_unreached
  · intro v hv
    have := hreach_s v hv
    subst this
    rw [hds]
    exact PathTo.refl
  · intro v hv
    have hv' := hreach_s v hv
    subst hv'
    rw [hds]
    omega
  · intro u huV hure huq _ _
    have := hreach_s u hure
    subst this
    exact absurd (List.mem_singleton.mpr rfl) huq
  · intro v hv hvq
    have := hreach_s v hv
    subst this
    exact absurd (List.mem_singleton.mpr rfl) hvq
  · refine ⟨0, [s], [], rfl, le_refl 0, ?_, by simp, ?_⟩
    · intro v hv
      rw [List.mem_singleton] at hv
      subst hv
      exact hds
    · intro v hv
      have := hreach_s v hv
      subst this
      rw [hds]
      omega
  · intro he
    have := hreach_s e he
    subst this
    rw [hds]
    omega
  · intro v w
    constructor
    · intro hmem
      rw [getD_replicate'] at hmem
      split at hmem <;> simp at hmem
    · rintro ⟨hwV, hwre, hwq, _, _⟩
      have := hreach_s w hwre
      subst this
      exact absurd (List.mem_singleton.mpr rfl) hwq

/-- `bfs_with_parents` terminates within its fuel on every well-formed
graph and establishes the BFS postcondition. -/
lemma bfsWithParents_run {adj : List (List Nat)} {s e : Nat}
    (hwf : ∀ row ∈ adj, ∀ v ∈ row, v < adj.length)
    (hV : adj.length < UNREACHED) (hs : s < adj.length) :
    ∃ parentsF dres,
      bfsWithParents adj s e = some (parentsF, dres) ∧
      BfsPost adj s e parentsF dres := by
  unfold bfsWithParents
  apply bfsLoop_run hwf hV (adj.length + 1) _ _ _ _ (bfsInv_init hs)
  simp only [List.length_singleton]
  omega



/-- C8: for an in-range pair whose end node is unreachable from the start,
`all_shortest_paths` returns the empty path list: the BFS leaves
`dist[end_index]` at `UINT32_MAX` and no backtracking is attempted. -/
theorem C8_unreachable_empty (adj : List (List Nat)) (s e : Nat)
    (hwf : ∀ row ∈ adj, ∀ v ∈ row, v < adj.length)
    (hV : adj.length < UNREACHED)
    (hs : s < adj.length) (he : e < adj.length)
    (hur : ¬ Reaches adj s e) :
    allShortestPaths adj s e = some [] := by
  unfold allShortestPaths
  rw [if_neg (by omega)]
  obtain ⟨parentsF, dres, hrun, hpost⟩ := bfsWithParents_run hwf hV hs (e := e)
  rw [hrun]
  have hdU : dres = UNREACHED := by
    by_contra h
    exact hur (hpost.1.mp h)
  show (if dres ≠ UNREACHED then
    backtrackLoop parentsF s ((maxRowLen parentsF + 2) ^ (dres + 2)) [[e]] []
    else some []) = some []
  rw [if_neg (fun h => h hdU)]

/-- Witness for `C8_unreachable_empty` on the two-node edgeless graph. -/
theorem C8_unreachable_empty_witness :
    (∀ row ∈ ([[], []] : List (List Nat)), ∀ v ∈ row, v < 2) ∧
    ([[], []] : List (List Nat)).length < UNREACHED ∧
    (0 : Nat) < 2 ∧ (1 : Nat) < 2 ∧ ¬ Reaches [[], []] 0 1 ∧
    allShortestPaths [[], []] 0 1 = some [] := by
  have hnr : ¬ Reaches ([[], []] : List (List Nat)) 0 1 := by
    rintro ⟨n, hp⟩
    have hrows : ∀ u : Nat, ([[], []] : List (List Nat)).getD u [] = [] :=
      fun u => match u with
        | 0 => rfl
        | 1 => rfl
        | _ + 2 => rfl
    cases hp with
    | step hpu hedge =>
      rw [hrows] at hedge
      exact absurd hedge (List.not_mem_nil _)
  exact ⟨by decide, by decide, by decide, by decide, hnr,
    C8_unreachable_empty [[], []] 0 1 (by decide) (by decide) (by decide)
      (by decide) hnr⟩

/-- C7: the self-query returns exactly one path, the single-node path. -/
theorem C7_self_query (adj : List (List Nat)) (a : Nat)
    (hwf : ∀ row ∈ adj, ∀ v ∈ row, v < adj.length)
    (hV : adj.length < UNREACHED) (ha : a < adj.length) :
    allShortestPaths adj a a = some [[a]] := by
  unfold allShortestPaths
  rw [if_neg (by omega)]
  obtain ⟨parentsF, dres, hrun, hpost⟩ := bfsWithParents_run hwf hV ha (e := a)
  rw [hrun]
  have h0 : dres = 0 := by
    have h1 : dres ≠ UNREACHED := hpost.1.mpr ⟨0, PathTo.refl⟩
    have h2 := (hpost.2.1 h1).2 0 PathTo.refl
    omega
  subst h0
  show (if (0 : Nat) ≠ UNREACHED then
    backtrackLoop parentsF a ((maxRowLen parentsF + 2) ^ (0 + 2)) [[a]] []
    else some []) = some [[a]]
  rw [if_pos zero_ne_unreached]
  obtain ⟨f, hf⟩ : ∃ f, (maxRowLen parentsF + 2) ^ (0 + 2) = f + 1 := by
    have hp0 : 0 < (maxRowLen parentsF + 2) ^ (0 + 2) :=
      Nat.pos_pow_of_pos _ (by omega)
    exact ⟨(maxRowLen parentsF + 2) ^ (0 + 2) - 1, by omega⟩
  have hlast : ([a] : List Nat).getLastD 0 = a := rfl
  rw [hf, backtrackLoop_cons_found _ _ _ _ _ _ hlast, backtrackLoop_nil]
  rfl

/-- Witness for `C7_self_query` on the one-node graph. -/
theorem C7_self_query_witness :
    (∀ row ∈ ([[]] : List (List Nat)), ∀ v ∈ row, v < 1) ∧
    ([[]] : List (List Nat)).length < UNREACHED ∧ (0 : Nat) < 1 ∧
    allShortestPaths [[]] 0 0 = some [[0]] :=
  ⟨by decide, by decide, by decide,
    C7_self_query [[]] 0 (by decide) (by decide) (by decide)⟩



lemma desc_at_start {parents : List (List Nat)} {s : Nat} {tail : List Nat}
    (h : Desc parents s s tail) : tail = [] := by
  cases h with
  | done => rfl
  | step hne _ _ => exact absurd rfl hne

lemma maxRowLen_bound {parents : List (List Nat)} {row : List Nat}
    (h : row ∈ parents) : row.length ≤ maxRowLen parents := by
  induction parents with
  | nil => simp at h
  | cons r rest ih =>
    rcases List.mem_cons.mp h with rfl | h
    · exact le_max_left _ _
    · exact le_trans (ih h) (le_max_right _ _)

lemma foldl_push_eq (E : List Nat) :
    ∀ (row : List Nat) (st : List (List Nat)),
      row.foldl (fun st p => (E ++ [p]) :: st) st =
        (row.map (fun w => E ++ [w])).reverse ++ st := by
  intro row
  induction row with
  | nil => intro st; rfl
  | cons w rest ih =>
    intro st
    rw [List.foldl_cons, ih, List.map_cons, List.reverse_cons, List.append_assoc]
    rfl

/-- The backtracking loop terminates on any stack of parent descents whose
total weight fits in the fuel, and returns exactly the accumulated paths
plus one reversed completion per descent from each stack entry. -/
lemma backtrackLoop_sem {adj : List (List Nat)} {s : Nat}
    (parents : List (List Nat)) (D : Nat)
    (hpar : ∀ v w, Reaches adj s v → gdist adj s v ≤ D →
      w ∈ parents.getD v [] →
        Reaches adj s w ∧ gdist adj s w + 1 = gdist adj s v) :
    ∀ (fuel : Nat) (stack paths : List (List Nat)),
      (∀ E ∈ stack, E ≠ [] ∧ Reaches adj s (E.getLastD 0) ∧
        gdist adj s (E.getLastD 0) ≤ D) →
      (stack.map (fun E =>
        (maxRowLen parents + 2) ^ (gdist adj s (E.getLastD 0) + 1))).sum ≤ fuel →
      ∃ res, backtrackLoop parents s fuel stack paths = some res ∧
        ∀ p, p ∈ res ↔ (p ∈ paths ∨ ∃ E ∈ stack, ∃ tail,
          Desc parents s (E.getLastD 0) tail ∧ p = (E ++ tail).reverse) := by
  intro fuel
  induction fuel with
  | zero =>
    intro stack paths hsinv hfl
    have hst : stack = [] := by
      cases stack with
      | nil => rfl
      | cons E st =>
        exfalso
        rw [List.map_cons, List.sum_cons] at hfl
        have : 0 < (maxRowLen parents + 2) ^ (gdist adj s (E.getLastD 0) + 1) :=
          Nat.pos_pow_of_pos _ (by omega)
        omega
    subst hst
    rw [backtrackLoop_nil]
    refine ⟨paths, rfl, fun p => ?_⟩
    simp
  | succ fuel ih =>
    intro stack paths hsinv hfl
    cases stack with
    | nil =>
      rw [backtrackLoop_nil]
      refine ⟨paths, rfl, fun p => ?_⟩
      simp
    | cons E stack' =>
      obtain ⟨hEne, hEr, hEle⟩ := hsinv E (List.mem_cons_self _ _)
      rw [List.map_cons, List.sum_cons] at hfl
      have hpow1 : 0 < (maxRowLen parents + 2) ^ (gdist adj s (E.getLastD 0) + 1) :=
        Nat.pos_pow_of_pos _ (by omega)
      by_cases hv : E.getLastD 0 = s
      · rw [backtrackLoop_cons_found _ _ _ _ _ _ hv]
        obtain ⟨res, hres, hchar⟩ := ih stack' (paths ++ [E.reverse])
          (fun E' hE' => hsinv E' (List.mem_cons_of_mem _ hE')) (by omega)
        refine ⟨res, hres, fun p => ?_⟩
        rw [hchar p]
        constructor
        · rintro (hp | hex)
          · rcases List.mem_append.mp hp with hp | hp
            · exact Or.inl hp
            · simp only [List.mem_singleton] at hp
              refine Or.inr ⟨E, List.mem_cons_self _ _, [], ?_, by simp [hp]⟩
              rw [hv]
              exact Desc.done
          · obtain ⟨E', hE', tail, hd, hp⟩ := hex
            exact Or.inr ⟨E', List.mem_cons_of_mem _ hE', tail, hd, hp⟩
        · rintro (hp | ⟨E', hE', tail, hd, hp⟩)
          · exact Or.inl (List.mem_append.mpr (Or.inl hp))
          · rcases List.mem_cons.mp hE' with rfl | hE'
            · have htail : tail = [] := desc_at_start (hv ▸ hd)
              subst htail
              left
              apply List.mem_append.mpr
              right
              simp [hp]
            · exact Or.inr ⟨E', hE', tail, hd, hp⟩
      · rw [backtrackLoop_cons_expand _ _ _ _ _ _ hv, foldl_push_eq]
        have hrow : ∀ w ∈ parents.getD (E.getLastD 0) [],
            Reaches adj s w ∧ gdist adj s w + 1 = gdist adj s (E.getLastD 0) :=
          fun w hw => hpar _ w hEr hEle hw
        have hlast' : ∀ w : Nat, (E ++ [w]).getLastD 0 = w := by
          intro w
          simp [List.getLastD_concat]
        have hsinv' : ∀ E' ∈ (List.map (fun w => E ++ [w])
            (parents.getD (E.getLastD 0) [])).reverse ++ stack',
            E' ≠ [] ∧ Reaches adj s (E'.getLastD 0) ∧
              gdist adj s (E'.getLastD 0) ≤ D := by
          intro E' hE'
          rcases List.mem_append.mp hE' with hE' | hE'
          · rw [List.mem_reverse] at hE'
            obtain ⟨w, hw, rfl⟩ := List.mem_map.mp hE'
            obtain ⟨hwr, hweq⟩ := hrow w hw
            refine ⟨by simp, ?_, ?_⟩
            · rw [hlast' w]
              exact hwr
            · rw [hlast' w]
              omega
          · exact hsinv E' (List.mem_cons_of_mem _ hE')
        have hrowlen : (parents.getD (E.getLastD 0) []).length ≤ maxRowLen parents := by
          rcases getD_mem_or parents (E.getLastD 0) [] with hm | hm
          · exact maxRowLen_bound hm
          · rw [hm]
            simp
        have hmeasure : ((((List.map (fun w => E ++ [w])
            (parents.getD (E.getLastD 0) [])).reverse ++ stack').map
              (fun E' => (maxRowLen parents + 2) ^
                (gdist adj s (E'.getLastD 0) + 1))).sum) ≤ fuel := by
          rw [List.map_append, List.sum_append, List.map_reverse, List.sum_reverse,
            List.map_map]
          have hmapeq : (parents.getD (E.getLastD 0) []).map
              ((fun E' => (maxRowLen parents + 2) ^ (gdist adj s (E'.getLastD 0) + 1)) ∘
                (fun w => E ++ [w])) =
              (parents.getD (E.getLastD 0) []).map
                (fun _ => (maxRowLen parents + 2) ^ (gdist adj s (E.getLastD 0))) := by
            apply List.map_congr_left
            intro w hw
            obtain ⟨hwr, hweq⟩ := hrow w hw
            simp only [Function.comp_apply]
            rw [hlast' w, ← hweq]
          rw [hmapeq, List.map_const', List.sum_replicate, smul_eq_mul]
          have hXpos : 0 < (maxRowLen parents + 2) ^ gdist adj s (E.getLastD 0) :=
            Nat.pos_pow_of_pos _ (by omega)
          have hmul : (parents.getD (E.getLastD 0) []).length *
              (maxRowLen parents + 2) ^ gdist adj s (E.getLastD 0) ≤
              maxRowLen parents *
                (maxRowLen parents + 2) ^ gdist adj s (E.getLastD 0) :=
            Nat.mul_le_mul_right _ hrowlen
          have hpowsucc : (maxRowLen parents + 2) ^ (gdist adj s (E.getLastD 0) + 1) =
              (maxRowLen parents + 2) *
                (maxRowLen parents + 2) ^ gdist adj s (E.getLastD 0) := by
            ring
          have hexp : (maxRowLen parents + 2) *
              (maxRowLen parents + 2) ^ gdist adj s (E.getLastD 0) =
              maxRowLen parents *
                (maxRowLen parents + 2) ^ gdist adj s (E.getLastD 0) +
              2 * (maxRowLen parents + 2) ^ gdist adj s (E.getLastD 0) := by
            ring
          omega
        obtain ⟨res, hres, hchar⟩ := ih _ paths hsinv' hmeasure
        refine ⟨res, hres, fun p => ?_⟩
        rw [hchar p]
        constructor
        · rintro (hp | ⟨E', hE', tail, hd, hp⟩)
          · exact Or.inl hp
          · rcases List.mem_append.mp hE' with hE' | hE'
            · rw [List.mem_reverse] at hE'
              obtain ⟨w, hw, rfl⟩ := List.mem_map.mp hE'
              rw [hlast' w] at hd
              refine Or.inr ⟨E, List.mem_cons_self _ _, w :: tail,
                Desc.step hv hw hd, ?_⟩
              rw [hp, List.append_assoc]
              rfl
            · exact Or.inr ⟨E', List.mem_cons_of_mem _ hE', tail, hd, hp⟩
        · rintro (hp | ⟨E', hE', tail, hd, hp⟩)
          · exact Or.inl hp
          · rcases List.mem_cons.mp hE' with rfl | hE'
            · cases hd with
              | done => exact absurd rfl hv
              | step hne hw hd' =>
                rename_i w tail'
                refine Or.inr ⟨E' ++ [w], ?_, tail', ?_, ?_⟩
                · apply List.mem_append.mpr
                  left
                  rw [List.mem_reverse]
                  exact List.mem_map.mpr ⟨w, hw, rfl⟩
                · rw [hlast' w]
                  exact hd'
                · rw [hp, List.append_assoc]
                  rfl
            · exact Or.inr ⟨E', List.mem_append.mpr (Or.inr hE'), tail, hd, hp⟩



/-- Every parent descent from a settled node spells a shortest path from the
start, reversed. -/
lemma desc_sound {adj : List (List Nat)} {s : Nat} {parents : List (List Nat)}
    {D : Nat}
    (hchar : ∀ v w, Reaches adj s v → gdist adj s v ≤ D →
      (w ∈ parents.getD v [] ↔
        (v ∈ adj.getD w [] ∧ Reaches adj s w ∧
          gdist adj s w + 1 = gdist adj s v)))
    {v : Nat} {tail : List Nat} (hd : Desc parents s v tail) :
    Reaches adj s v → gdist adj s v ≤ D →
      ValidPath adj s v ((v :: tail).reverse) ∧
      (v :: tail).length = gdist adj s v + 1 := by
  induction hd with
  | done =>
    intro _ _
    refine ⟨⟨rfl, rfl, List.chain'_singleton s⟩, ?_⟩
    rw [gdist_self]
    rfl
  | step hne hmem hd' ih =>
    rename_i v w tail'
    intro hvr hvle
    obtain ⟨hedge, hwr, hweq⟩ := (hchar v w hvr hvle).mp hmem
    obtain ⟨⟨hh, hl, hc⟩, hlen⟩ := ih hwr (by omega)
    have hrevne : (w :: tail').reverse ≠ [] := by simp
    refine ⟨⟨?_, ?_, ?_⟩, ?_⟩
    · rw [List.reverse_cons, List.head?_append_of_ne_nil _ hrevne]
      exact hh
    · rw [List.reverse_cons]
      exact List.getLast?_concat _
    · rw [List.reverse_cons, List.chain'_append]
      refine ⟨hc, List.chain'_singleton v, ?_⟩
      intro x hx y hy
      simp only [List.head?_cons, Option.mem_def, Option.some_inj] at hy
      rw [List.getLast?_reverse, List.head?_cons] at hx
      simp only [Option.mem_def, Option.some_inj] at hx
      subst hx
      subst hy
      exact hedge
    · simp only [List.length_cons] at hlen ⊢
      omega

/-- Conversely, every shortest path from the start to a settled node is
spelled by some parent descent. -/
lemma desc_complete {adj : List (List Nat)} {s : Nat} {parents : List (List Nat)}
    {D : Nat}
    (hchar : ∀ v w, Reaches adj s v → gdist adj s v ≤ D →
      (w ∈ parents.getD v [] ↔
        (v ∈ adj.getD w [] ∧ Reaches adj s w ∧
          gdist adj s w + 1 = gdist adj s v))) :
    ∀ (p : List Nat) (v : Nat), Reaches adj s v → gdist adj s v ≤ D →
      ValidPath adj s v p → p.length = gdist adj s v + 1 →
      ∃ tail, Desc parents s v tail ∧ p = (v :: tail).reverse := by
  intro p
  induction p using List.reverseRecOn with
  | nil =>
    intro v _ _ hvp _
    obtain ⟨hh, _, _⟩ := hvp
    simp at hh
  | append_singleton q a ihq =>
    intro v hvr hvle hvp hplen
    obtain ⟨hh, hl, hc⟩ := hvp
    have ha : a = v := by
      rw [List.getLast?_concat] at hl
      simpa using hl
    subst ha
    rcases List.eq_nil_or_concat q with hq | ⟨q', b, rfl⟩
    · subst hq
      simp only [List.nil_append, List.head?_cons, Option.some_inj] at hh
      refine ⟨[], ?_, by simp⟩
      rw [← hh]
      exact Desc.done
    · simp only [List.concat_eq_append] at ihq hh hc hplen
      have hqne : q' ++ [b] ≠ [] := by simp
      have hh' : (q' ++ [b]).head? = some s := by
        rwa [List.head?_append_of_ne_nil _ hqne] at hh
      rw [List.chain'_append] at hc
      obtain ⟨hcq, _, hlink⟩ := hc
      have hedge : a ∈ adj.getD b [] := by
        apply hlink b _ a rfl
        rw [List.getLast?_concat]
        rfl
      have hvq : ValidPath adj s b (q' ++ [b]) :=
        ⟨hh', List.getLast?_concat q', hcq⟩
      have hbr : Reaches adj s b := validPath_reaches hvq
      have hqlen : (q' ++ [b]).length = gdist adj s a := by
        rw [List.length_append] at hplen
        simp only [List.length_append, List.length_singleton] at hplen ⊢
        omega
      have hgb : gdist adj s b + 1 = gdist adj s a := by
        have h1 : gdist adj s b ≤ (q' ++ [b]).length - 1 :=
          gdist_le (validPath_pathTo _ b hvq)
        have h2 : gdist adj s a ≤ gdist adj s b + 1 := gdist_edge_le hbr hedge
        have h3 : 1 ≤ (q' ++ [b]).length := by simp
        omega
      have hapos : 0 < gdist adj s a := by
        have h3 : 1 ≤ (q' ++ [b]).length := by simp
        omega
      have hanes : a ≠ s := by
        intro h
        rw [h, gdist_self] at hapos
        omega
      have hbmem : b ∈ parents.getD a [] :=
        (hchar a b hvr hvle).mpr ⟨hedge, hbr, hgb⟩
      obtain ⟨tail', hd', hq'⟩ := ihq b hbr (by omega) hvq (by omega)
      refine ⟨b :: tail', Desc.step hanes hbmem hd', ?_⟩
      simp only [List.concat_eq_append]
      rw [List.reverse_cons, List.reverse_cons]
      rw [List.reverse_cons] at hq'
      rw [← hq']

/-- C1: for every well-formed graph and in-range endpoints,
`all_shortest_paths` returns a list of paths whose members are exactly the
minimum-length directed paths from the start node to the end node. -/
theorem C1_all_shortest_paths (adj : List (List Nat)) (s e : Nat)
    (hwf : ∀ row ∈ adj, ∀ v ∈ row, v < adj.length)
    (hV : adj.length < UNREACHED)
    (hs : s < adj.length) (he : e < adj.length) :
    ∃ paths, allShortestPaths adj s e = some paths ∧
      ∀ p, p ∈ paths ↔ (ValidPath adj s e p ∧
        ∀ q, ValidPath adj s e q → p.length ≤ q.length) := by
  unfold allShortestPaths
  rw [if_neg (by omega)]
  obtain ⟨parentsF, dres, hrun, hpost⟩ := bfsWithParents_run hwf hV hs (e := e)
  rw [hrun]
  obtain ⟨hiff, hmin, hchar⟩ := hpost
  by_cases hre : dres = UNREACHED
  · -- unreachable end node: no valid path exists and the result is empty
    refine ⟨[], ?_, ?_⟩
    · show (if dres ≠ UNREACHED then
        backtrackLoop parentsF s ((maxRowLen parentsF + 2) ^ (dres + 2)) [[e]] []
        else some []) = some []
      rw [if_neg (fun h => h hre)]
    · intro p
      simp only [List.not_mem_nil, false_iff]
      rintro ⟨hvp, _⟩
      have hr : Reaches adj s e := validPath_reaches hvp
      rw [← hiff] at hr
      exact hr hre
  · have hred : Reaches adj s e := hiff.mp hre
    obtain ⟨hpath, hminim⟩ := hmin hre
    have hgde : gdist adj s e = dres := by
      have h1 := gdist_le hpath
      have h2 := hminim _ (reaches_pathTo hred)
      omega
    have hpar : ∀ v w, Reaches adj s v → gdist adj s v ≤ dres →
        w ∈ parentsF.getD v [] →
          Reaches adj s w ∧ gdist adj s w + 1 = gdist adj s v :=
      fun v w hr hle hm => ((hchar v w hr hle).mp hm).2
    have hsinv : ∀ E ∈ ([[e]] : List (List Nat)), E ≠ [] ∧
        Reaches adj s (E.getLastD 0) ∧ gdist adj s (E.getLastD 0) ≤ dres := by
      intro E hE
      rw [List.mem_singleton] at hE
      subst hE
      refine ⟨by simp, ?_, ?_⟩
      · exact hred
      · show gdist adj s e ≤ dres
        omega
    have hfl : (([[e]] : List (List Nat)).map (fun E =>
        (maxRowLen parentsF + 2) ^ (gdist adj s (E.getLastD 0) + 1))).sum ≤
        (maxRowLen parentsF + 2) ^ (dres + 2) := by
      have hsum : (([[e]] : List (List Nat)).map (fun E =>
          (maxRowLen parentsF + 2) ^ (gdist adj s (E.getLastD 0) + 1))).sum =
          (maxRowLen parentsF + 2) ^ (gdist adj s e + 1) := by
        simp
      rw [hsum, hgde]
      exact Nat.pow_le_pow_right (by omega) (by omega)
    obtain ⟨res, hres, hcharp⟩ :=
      backtrackLoop_sem parentsF dres hpar _ [[e]] [] hsinv hfl
    refine ⟨res, ?_, ?_⟩
    · show (if dres ≠ UNREACHED then
        backtrackLoop parentsF s ((maxRowLen parentsF + 2) ^ (dres + 2)) [[e]] []
        else some []) = some res
      rw [if_pos hre, hres]
    · intro p
      rw [hcharp p]
      simp only [List.not_mem_nil, false_or]
      constructor
      · rintro ⟨E, hE, tail, hd, hp⟩
        rw [List.mem_singleton] at hE
        subst hE
        have hd' : Desc parentsF s e tail := hd
        obtain ⟨hvp, hlen⟩ := desc_sound hchar hd' hred (by omega)
        have hpe : p = (e :: tail).reverse := by
          rw [hp]
          rfl
        rw [hpe]
        refine ⟨hvp, ?_⟩
        intro q hq
        have hql := validPath_length hq
        rw [List.length_reverse, hlen]
        omega
      · rintro ⟨hvp, hminp⟩
        have hlb := validPath_length hvp
        have hub : p.length ≤ dres + 1 := by
          obtain ⟨q0, hq0, hq0len⟩ := pathTo_exists_validPath hpath
          have := hminp q0 hq0
          omega
        have hplen : p.length = gdist adj s e + 1 := by omega
        obtain ⟨tail, hd, hp⟩ :=
          desc_complete hchar p e hred (by omega) hvp hplen
        refine ⟨[e], List.mem_singleton.mpr rfl, tail, hd, ?_⟩
        rw [hp]
        rfl

/-- Witness for `C1_all_shortest_paths` on the diamond graph
`0 → 1 → 3`, `0 → 2 → 3` (the spec's scenario: exactly two shortest
paths). -/
theorem C1_all_shortest_paths_witness :
    (∀ row ∈ ([[1, 2], [3], [3], []] : List (List Nat)), ∀ v ∈ row, v < 4) ∧
    ([[1, 2], [3], [3], []] : List (List Nat)).length < UNREACHED ∧
    (0 : Nat) < 4 ∧ (3 : Nat) < 4 ∧
    (∃ paths, allShortestPaths [[1, 2], [3], [3], []] 0 3 = some paths ∧
      ∀ p, p ∈ paths ↔ (ValidPath [[1, 2], [3], [3], []] 0 3 p ∧
        ∀ q, ValidPath [[1, 2], [3], [3], []] 0 3 q → p.length ≤ q.length)) :=
  ⟨by decide, by decide, by decide, by decide,
    C1_all_shortest_paths [[1, 2], [3], [3], []] 0 3 (by decide) (by decide)
      (by decide) (by decide)⟩

end WikiGraph
